import Mathlib

/-!
Alarm manager (`main/alarm_manager.cc`, `main/alarm_manager.h`)

A shallow embedding of `AlarmManager`: the alarm list, its persistence to the
NVS key-value store, the text router `parseResponse` with the time extractor
`parseTime`, and the once-per-second scheduler `checkAlarms`.

Conventions of the embedding.

* A `std::string` is the list of its bytes (`Str`); text literals of the source
  are written as Lean strings and turned into their UTF-8 bytes by `bytes`.
* `uint8_t` values are `Nat`; where the source stores an `int` into a `uint8_t`
  the model reduces modulo `256`.
* `std::regex_search` with the three ECMAScript patterns of `parseTime` is a
  small backtracking matcher (`Regex.run`, `regex_search`) applied to the
  patterns written as syntax trees.
* The environment reads of the source (`time`, `localtime_r`, the result of
  `nvs_open`) are parameters of the operations.
* The NVS namespace is a map from slot numbers to blobs plus the `count`
  entry; the key "alarm_<i>" stands for slot `i`. Calls on an open handle
  succeed, calls without one fail and change nothing.
* C strings end at their first NUL byte. `loadFromNVS` reads its buffer with no
  test against the size of the blob; where a read falls past the end of the
  blob the behaviour of the source is undefined, `parseRecord` says so and the
  load (and `init`) has no result (`none`).
* Two ghost fields of the state record the observable effects: the alarms
  handed to `triggerAlarm`, and the number of `saveToNVS` calls.
* `std::sort` is a parameter of `getAllAlarmsInfo`, constrained in the theorems
  only by what the standard guarantees (`IsStdSort`).
-/

namespace AlarmManager

/-! ## Strings as bytes -/

/-- A `std::string`: the sequence of its bytes. -/
abbrev Str := List Nat

/-- UTF-8 encoding of one code point. -/
def utf8EncodeNat (c : Nat) : Str :=
  if c < 0x80 then [c]
  else if c < 0x800 then [0xC0 + c / 64, 0x80 + c % 64]
  else if c < 0x10000 then [0xE0 + c / 4096, 0x80 + c / 64 % 64, 0x80 + c % 64]
  else [0xF0 + c / 262144, 0x80 + c / 4096 % 64, 0x80 + c / 64 % 64, 0x80 + c % 64]

/-- The bytes of a narrow string literal of the (UTF-8 encoded) source file. -/
def bytes (s : String) : Str :=
  s.toList.flatMap (fun c => utf8EncodeNat c.toNat)

/-- The member `std::string::find(needle)`: the first position at which `needle` occurs,
`none` for `npos`. -/
def find : Str → Str → Option Nat
  | [], needle => if needle.isPrefixOf [] then some 0 else none
  | c :: cs, needle =>
    if needle.isPrefixOf (c :: cs) then some 0
    else (find cs needle).map (· + 1)

/-- The test `text.find(needle) != std::string::npos`. -/
def contains (text : Str) (needle : String) : Bool :=
  (find text (bytes needle)).isSome

/-- The predicate `isdigit` in the "C" locale: `'0'..'9'`. -/
def isdigit (c : Nat) : Bool := 48 ≤ c && c ≤ 57

/-- The predicate `isspace` in the "C" locale: space, `\t`, `\n`, `\v`, `\f`, `\r`. -/
def isspace (c : Nat) : Bool := c == 32 || (9 ≤ c && c ≤ 13)

/-- The value `std::stoi` returns on a string of decimal digits (the only
strings it is applied to are captures of `\d{1,2}` and `\d{2}`). -/
def stoi (s : Str) : Nat :=
  s.foldl (fun acc c => acc * 10 + (c - 48)) 0

/-! ## Regular expressions of `parseTime` -/

/-- Syntax of the ECMAScript regular expressions used by the source. The star
is applied to one-character classes only (`\s*`). -/
inductive Regex where
  | eps : Regex
  | lit (c : Nat) : Regex
  | cls (p : Nat → Bool) : Regex
  | seq (a b : Regex) : Regex
  | alt (a b : Regex) : Regex
  | opt (a : Regex) : Regex
  | star (p : Nat → Bool) : Regex
  | group (n : Nat) (a : Regex) : Regex

/-- Captures of a match attempt: group number and captured text, most recent
first. A group with no entry did not participate (`matched == false`). -/
abbrev Caps := List (Nat × Str)

/-- Greedy `c*` for a one-character class, with backtracking to fewer
repetitions when the continuation fails. -/
def starRun (p : Nat → Bool) : Str → (Str → Option Caps) → Option Caps
  | [], k => k []
  | c :: cs, k =>
    if p c then
      match starRun p cs k with
      | some r => some r
      | none => k (c :: cs)
    else k (c :: cs)

/-- Backtracking matcher in continuation-passing style: `run r inp caps k`
matches `r` at the front of `inp` and hands the rest of the input and the
captures to `k`; alternatives are tried left to right, quantifiers are greedy,
and the first overall success is the result (ECMAScript priority order). -/
def Regex.run : Regex → Str → Caps → (Str → Caps → Option Caps) → Option Caps
  | .eps, inp, caps, k => k inp caps
  | .lit c, inp, caps, k =>
    match inp with
    | x :: xs => if x = c then k xs caps else none
    | [] => none
  | .cls p, inp, caps, k =>
    match inp with
    | x :: xs => if p x then k xs caps else none
    | [] => none
  | .seq a b, inp, caps, k => a.run inp caps (fun inp1 caps1 => b.run inp1 caps1 k)
  | .alt a b, inp, caps, k =>
    match a.run inp caps k with
    | some r => some r
    | none => b.run inp caps k
  | .opt a, inp, caps, k =>
    match a.run inp caps k with
    | some r => some r
    | none => k inp caps
  | .star p, inp, caps, k => starRun p inp (fun rest => k rest caps)
  | .group n a, inp, caps, k =>
    a.run inp caps (fun rest caps1 =>
      k rest ((n, inp.take (inp.length - rest.length)) :: caps1))

/-- Greedy bounded repetition `a{lo,hi}`, unfolded into sequence and option. -/
def Regex.rep (a : Regex) : Nat → Nat → Regex
  | _, 0 => .eps
  | 0, hi + 1 => .opt (.seq a (Regex.rep a 0 hi))
  | lo + 1, hi + 1 => .seq a (Regex.rep a lo hi)

/-- A literal byte string as a regular expression. -/
def Regex.str : Str → Regex
  | [] => .eps
  | c :: cs => .seq (.lit c) (Regex.str cs)

/-- The function `std::regex_search`: the match at the leftmost start position at which
the pattern matches; the result holds the captures of that match. -/
def regex_search (r : Regex) : Str → Option Caps
  | [] => r.run [] [] (fun _ caps => some caps)
  | c :: cs =>
    match r.run (c :: cs) [] (fun _ caps => some caps) with
    | some caps => some caps
    | none => regex_search r cs

/-- The class `\d`. -/
def reDigit : Regex := .cls isdigit

/-- The pattern `(\d{1,2})h(\d{1,2})?`. -/
def pattern_compact : Regex :=
  .seq (.group 1 (reDigit.rep 1 2))
    (.seq (.lit 104) (.opt (.group 2 (reDigit.rep 1 2))))

/-- The pattern `(\d{1,2})\s*(gio|giờ|h)\s*(\d{1,2})?`. -/
def pattern_full : Regex :=
  .seq (.group 1 (reDigit.rep 1 2))
    (.seq (.star isspace)
      (.seq (.group 2 (.alt (Regex.str (bytes "gio"))
                        (.alt (Regex.str (bytes "giờ")) (Regex.str (bytes "h")))))
        (.seq (.star isspace) (.opt (.group 3 (reDigit.rep 1 2))))))

/-- The pattern `(\d{1,2}):(\d{2})`. -/
def pattern_time : Regex :=
  .seq (.group 1 (reDigit.rep 1 2))
    (.seq (.lit 58) (.group 2 (reDigit.rep 2 2)))

/-- The text of capture group `n` (`match[n]`), empty when it did not
participate. -/
def capture (m : Caps) (n : Nat) : Str := (m.lookup n).getD []

/-- The flag `match[n].matched`. -/
def matched (m : Caps) (n : Nat) : Bool := (m.lookup n).isSome

/-- The afternoon/evening test of `parseTime`. -/
def hasAfternoonMarker (text : Str) : Bool :=
  contains text "chieu" || contains text "chiều" ||
  contains text "toi" || contains text "tối"

/-- The morning test of `parseTime`. -/
def hasMorningMarker (text : Str) : Bool :=
  contains text "sang" || contains text "sáng"

/-- The method `AlarmManager::parseTime`: `some (hour, minute)` when the source returns
`true` with these out-parameters, `none` when it returns `false`. -/
def parseTime (text : Str) : Option (Nat × Nat) :=
  match regex_search pattern_compact text with
  | some m =>
    let hour := stoi (capture m 1) % 256
    let minute := if matched m 2 then stoi (capture m 2) % 256 else 0
    some (hour, minute)
  | none =>
    match regex_search pattern_full text with
    | some m =>
      let hour := stoi (capture m 1) % 256
      let minute := if matched m 3 then stoi (capture m 3) % 256 else 0
      let hour :=
        if hasAfternoonMarker text then
          (if hour < 12 then (hour + 12) % 256 else hour)
        else if hasMorningMarker text then
          (if hour == 12 then 0 else hour)
        else hour
      some (hour, minute)
    | none =>
      match regex_search pattern_time text with
      | some m =>
        let hour := stoi (capture m 1) % 256
        let minute := stoi (capture m 2) % 256
        some (hour, minute)
      | none => none

/-! ## Alarms and the persistent store -/

/-- The struct `AlarmManager::Alarm`. -/
structure Alarm where
  hour : Nat
  minute : Nat
  message : Str
  enabled : Bool
  repeated : Bool
  deriving DecidableEq, Repr

/-- Contents of the NVS namespace "alarms": the `u8` entry "count" and the
blob entries "alarm_<i>", indexed by the slot number `i`. -/
structure Nvs where
  count : Option Nat
  blob : Nat → Option Str

/-- Result of `nvs_set_u8(handle, "count", v)`. -/
def Nvs.set_u8 (nvs : Nvs) (v : Nat) : Nvs :=
  { nvs with count := some (v % 256) }

/-- Result of `nvs_set_blob(handle, "alarm_<i>", data, len)`. -/
def Nvs.set_blob (nvs : Nvs) (i : Nat) (data : Str) : Nvs :=
  { nvs with blob := fun j => if j = i then some data else nvs.blob j }

/-- Broken-down local time, the fields of `struct tm` the source reads. -/
structure Tm where
  tm_hour : Nat
  tm_min : Nat
  tm_sec : Nat
  deriving DecidableEq, Repr

/-- State of the `AlarmManager` singleton. `nvs_handle_` is the namespace the
handle gives access to, `none` while no handle is open (every NVS call on it
fails and has no effect). `triggered` and `save_calls` are ghost fields: the
arguments of the `triggerAlarm` calls so far, oldest first, and the number of
`saveToNVS` calls so far. -/
structure State where
  alarms_ : List Alarm
  nvs_handle_ : Option Nvs
  last_check_time_ : Int
  triggered : List Alarm
  save_calls : Nat

/-! ## Serialisation -/

/-- Output of `printf("%02d", n)` for a non-negative `n`. -/
def fmt02d (n : Nat) : Str :=
  let ds := (Nat.toDigits 10 n).map Char.toNat
  List.replicate (2 - ds.length) 48 ++ ds

/-- Output of `printf("%d", b ? 1 : 0)`. -/
def fmtFlag (b : Bool) : Str := if b then [49] else [48]

/-- The bytes `printf("%s", s.c_str())` prints: up to the first NUL. -/
def c_str (s : Str) : Str := s.takeWhile (· ≠ 0)

/-- The complete output of the format `"%02d:%02d|%s|%d|%d"` of `saveToNVS`. -/
def formatRecord (a : Alarm) : Str :=
  fmt02d a.hour ++ [58] ++ fmt02d a.minute ++ [124] ++ c_str a.message ++
    [124] ++ fmtFlag a.enabled ++ [124] ++ fmtFlag a.repeated

/-- The blob `saveToNVS` stores for one alarm: `snprintf` into `buffer[256]`
keeps at most 255 bytes of the output, and `strlen(buffer) + 1` bytes are
written, the terminating NUL included. -/
def recordBlob (a : Alarm) : Str :=
  (formatRecord a).take 255 ++ [0]

/-- The loop of `saveToNVS`, from slot `i` on. -/
def saveLoop : List Alarm → Nat → Nvs → Nvs
  | [], _, nvs => nvs
  | a :: rest, i, nvs => saveLoop rest (i + 1) (nvs.set_blob i (recordBlob a))

/-- The method `AlarmManager::saveToNVS`. -/
def saveToNVS (s : State) : State :=
  { s with
    nvs_handle_ :=
      s.nvs_handle_.map (fun nvs => saveLoop s.alarms_ 0 (nvs.set_u8 s.alarms_.length))
    save_calls := s.save_calls + 1 }

/-- The function `strchr(s, c)` for `c ≠ 0` on a NUL-terminated string: offset of the first
`c` before the terminator. It is applied to lists that hold a NUL or end where
the string ends. -/
def strchr : Str → Nat → Option Nat
  | [], _ => none
  | x :: xs, c =>
    if x = 0 then none
    else if x = c then some 0
    else (strchr xs c).map (· + 1)

/-- The value `strtoul` gives for a digit string on a 32-bit `unsigned long`:
clamped to `ULONG_MAX` on overflow, negated modulo `2^32` after a minus sign. -/
def strtoul (neg : Bool) (ds : Str) : Nat :=
  let n := stoi ds
  if n ≥ 2 ^ 32 then 2 ^ 32 - 1
  else if neg then (2 ^ 32 - n) % 2 ^ 32
  else n

/-- The optional sign a numeric conversion of `sscanf` accepts: whether it is
a minus sign, and the input after it. -/
def scanSign (s : Str) : Bool × Str :=
  match s with
  | 45 :: r => (true, r)
  | 43 :: r => (false, r)
  | _ => (false, s)

/-- One `%hhu` conversion of `sscanf`: skips white space, reads an optional
sign and a non-empty run of digits, and stores the value as `unsigned char`.
Returns the stored value and the unread input, `none` on a matching failure. -/
def scanHhu (s : Str) : Option (Nat × Str) :=
  let signed := scanSign (s.dropWhile isspace)
  let ds := signed.2.takeWhile isdigit
  if ds = [] then none
  else some (strtoul signed.1 ds % 256, signed.2.dropWhile isdigit)

/-- The call `sscanf(buffer, "%hhu:%hhu|", &hour, &minute)` on a NUL-terminated
buffer: the two stored values when it returns `2`, `none` otherwise. -/
def sscanfTime (buffer : Str) : Option (Nat × Nat) :=
  match scanHhu buffer with
  | none => none
  | some (hour, r1) =>
    match r1 with
    | 58 :: r2 =>
      match scanHhu r2 with
      | none => none
      | some (minute, _) => some (hour, minute)
    | _ => none

/-- What the body of the loop of `loadFromNVS` does with one blob that was read. -/
inductive Record where
  | undefined : Record
  | skipped : Record
  | alarm (a : Alarm) : Record
  deriving DecidableEq, Repr

/-- The body of the loop of `loadFromNVS` for one blob that was read into
`buffer`: the alarm it pushes, `skipped` when the record is not pushed, and
`undefined` when the source reads past the end of the blob: `sscanf` and
`strchr` scan to the terminating NUL, so the blob has to hold one, and
`flag_start[3]` has to lie inside the blob (`flag_start[1]` then does too, so
the default of `getD` is never used). -/
def parseRecord (buffer : Str) : Record :=
  if 0 ∉ buffer then .undefined
  else
    match sscanfTime buffer with
    | none => .skipped
    | some (hour, minute) =>
      match strchr buffer 124 with
      | none => .skipped
      | some p1 =>
        let msg_start := p1 + 1
        match strchr (buffer.drop msg_start) 124 with
        | none => .skipped
        | some len =>
          let flag_start := msg_start + len
          if flag_start + 3 < buffer.length then
            .alarm { hour := hour
                     minute := minute
                     message := (buffer.drop msg_start).take len
                     enabled := buffer.getD (flag_start + 1) 0 == 49
                     repeated := buffer.getD (flag_start + 3) 0 == 49 }
          else .undefined

/-- One iteration of the loop of `loadFromNVS` for slot `i`: the alarm list after
it, `none` when the behaviour of the source is undefined. -/
def loadSlot (nvs : Nvs) (alarms : List Alarm) (i : Nat) : Option (List Alarm) :=
  match nvs.blob i with
  | none => some alarms
  | some buffer =>
    if buffer.length > 0 then
      match parseRecord buffer with
      | .alarm alarm => some (alarms ++ [alarm])
      | .skipped => some alarms
      | .undefined => none
    else some alarms

/-- The method `AlarmManager::loadFromNVS`: the state after it, `none` when the
behaviour of the source is undefined. -/
def loadFromNVS (s : State) : Option State :=
  match s.nvs_handle_ with
  | none => some s
  | some nvs =>
    let count := nvs.count.getD 0
    ((List.range (min count 10)).foldlM (loadSlot nvs) s.alarms_).map
      (fun alarms => { s with alarms_ := alarms })

/-! ## Operations on the alarm list -/

/-- The algorithm `std::remove_if` followed by `erase`: the elements that do not
satisfy `p`, in order. -/
def remove_if (p : Alarm → Bool) : List Alarm → List Alarm
  | [] => []
  | a :: rest => if p a then remove_if p rest else a :: remove_if p rest

/-- The method `AlarmManager::cleanupExpiredAlarms`. -/
def cleanupExpiredAlarms (s : State) : State :=
  let kept := remove_if (fun alarm => !alarm.enabled && !alarm.repeated) s.alarms_
  if kept.length ≠ s.alarms_.length then
    saveToNVS { s with alarms_ := kept }
  else s

/-- The method `AlarmManager::isDuplicateAlarm`. -/
def isDuplicateAlarm (s : State) (hour minute : Nat) : Bool :=
  s.alarms_.any (fun alarm => alarm.enabled && alarm.hour == hour && alarm.minute == minute)

/-- The method `AlarmManager::clearAll`. -/
def clearAll (s : State) : State :=
  saveToNVS { s with alarms_ := [] }

/-- The method `AlarmManager::addAlarm`. -/
def addAlarm (alarm : Alarm) (s : State) : State :=
  if alarm.hour > 23 || alarm.minute > 59 then s
  else if isDuplicateAlarm s alarm.hour alarm.minute then s
  else saveToNVS { s with alarms_ := s.alarms_ ++ [alarm] }

/-- The delete-all test of `parseResponse`. -/
def isDeleteRequest (text : Str) : Bool :=
  contains text "xoa bao thuc" || contains text "xóa báo thức" ||
  contains text "xoa tat ca" || contains text "huy bao"

/-- The list-request test of `parseResponse`. -/
def isListRequest (text : Str) : Bool :=
  contains text "kiem tra" || contains text "kiểm tra" || contains text "xem" ||
  contains text "danh sach" || contains text "danh sách" ||
  contains text "co bao nhieu" || contains text "có bao nhiêu"

/-- The flag `is_alarm` of `parseResponse`. -/
def is_alarm (text : Str) : Bool :=
  contains text "bao thuc" || contains text "báo thức" || contains text "alarm" ||
  contains text "dat bao" || contains text "đặt báo"

/-- The flag `is_reminder` of `parseResponse`. -/
def is_reminder (text : Str) : Bool :=
  contains text "nhac" || contains text "nhắc" || contains text "reminder"

/-- The daily-recurrence test of `parseResponse`. -/
def isDaily (text : Str) : Bool :=
  contains text "hang ngay" || contains text "hàng ngày" ||
  contains text "moi ngay" || contains text "mỗi ngày"

/-- The message `parseResponse` gives a new alarm. -/
def alarmMessage (text : Str) : Str :=
  if text.length > 50 then text.take 50 ++ bytes "..." else text

/-- The method `AlarmManager::parseResponse`. -/
def parseResponse (text : Str) (s : State) : State :=
  if isDeleteRequest text then clearAll s
  else if isListRequest text then s
  else if !is_alarm text && !is_reminder text then s
  else
    match parseTime text with
    | none => s
    | some (hour, minute) =>
      if hour > 23 || minute > 59 then s
      else if isDuplicateAlarm s hour minute then s
      else
        let new_alarm : Alarm :=
          { hour := hour
            minute := minute
            message := alarmMessage text
            enabled := true
            repeated := isDaily text }
        saveToNVS { s with alarms_ := s.alarms_ ++ [new_alarm] }

/-- The firing test of `checkAlarms` for one enabled alarm. -/
def isDue (timeinfo : Tm) (alarm : Alarm) : Bool :=
  alarm.hour == timeinfo.tm_hour && alarm.minute == timeinfo.tm_min && timeinfo.tm_sec == 0

/-- The loop of `checkAlarms`: the updated alarm list and the alarms handed to
`triggerAlarm`, in order (`triggered_any` holds when the latter is non-empty). -/
def checkLoop (timeinfo : Tm) : List Alarm → List Alarm × List Alarm
  | [] => ([], [])
  | alarm :: rest =>
    let (rest1, fired) := checkLoop timeinfo rest
    if !alarm.enabled then (alarm :: rest1, fired)
    else if isDue timeinfo alarm then
      ((if !alarm.repeated then { alarm with enabled := false } else alarm) :: rest1,
        alarm :: fired)
    else (alarm :: rest1, fired)

/-- The method `AlarmManager::checkAlarms`; `now` is the value `time` returns and
`localtime_r` the conversion to local time. -/
def checkAlarms (localtime_r : Int → Tm) (now : Int) (s : State) : State :=
  if now = s.last_check_time_ then s
  else
    let s1 := { s with last_check_time_ := now }
    let timeinfo := localtime_r now
    let (alarms, fired) := checkLoop timeinfo s1.alarms_
    let s2 := { s1 with alarms_ := alarms, triggered := s1.triggered ++ fired }
    if fired ≠ [] then cleanupExpiredAlarms (saveToNVS s2)
    else s2

/-- The method `AlarmManager::init`; `opened` is the namespace `nvs_open` gives access
to, `none` when it fails. The result is `none` when the behaviour of
`loadFromNVS` is undefined. -/
def init (opened : Option Nvs) (s : State) : Option State :=
  match opened with
  | none => some s
  | some nvs =>
    (loadFromNVS { s with nvs_handle_ := some nvs }).map
      (fun s1 => cleanupExpiredAlarms { s1 with last_check_time_ := 0 })

/-- Storage with no entry. -/
def Nvs.empty : Nvs := { count := none, blob := fun _ => none }

/-- A state with the given alarms over empty, opened storage. -/
def mkState (alarms : List Alarm) : State :=
  { alarms_ := alarms, nvs_handle_ := some Nvs.empty, last_check_time_ := 0,
    triggered := [], save_calls := 0 }

/-! ## Specification predicates -/

/-- At most one enabled alarm per (hour, minute): no two entries of the list are
both enabled with the same hour and minute. -/
def UniqueEnabled (l : List Alarm) : Prop :=
  l.Pairwise (fun a b =>
    ¬ (a.enabled = true ∧ b.enabled = true ∧ a.hour = b.hour ∧ a.minute = b.minute))

instance (l : List Alarm) : Decidable (UniqueEnabled l) := by
  unfold UniqueEnabled; infer_instance

/-- The enabled alarms of the list at a given hour and minute. -/
def enabledAt (l : List Alarm) (hour minute : Nat) : List Alarm :=
  l.filter (fun a => a.enabled && a.hour == hour && a.minute == minute)

/-- Every alarm of the list has its hour in [0,23] and its minute in [0,59]. -/
def InRange (l : List Alarm) : Prop :=
  ∀ a ∈ l, a.hour ≤ 23 ∧ a.minute ≤ 59

instance (l : List Alarm) : Decidable (InRange l) := by
  unfold InRange; infer_instance

/-- One or two decimal digits. -/
def Digits12 (cap : Str) : Prop :=
  (∃ d, isdigit d = true ∧ cap = [d]) ∨
  (∃ d e, isdigit d = true ∧ isdigit e = true ∧ cap = [d, e])

/-- The operations that change the alarm list after start-up. -/
inductive Op where
  | parseResponse (text : Str)
  | addAlarm (alarm : Alarm)
  | checkAlarms (now : Int)
  | cleanupExpiredAlarms
  | clearAll

/-- One operation applied to a state. -/
def step (localtime_r : Int → Tm) : Op → State → State
  | .parseResponse text, s => parseResponse text s
  | .addAlarm alarm, s => addAlarm alarm s
  | .checkAlarms now, s => checkAlarms localtime_r now s
  | .cleanupExpiredAlarms, s => cleanupExpiredAlarms s
  | .clearAll, s => clearAll s

/-- A sequence of operations applied in order. -/
def run (localtime_r : Int → Tm) (ops : List Op) (s : State) : State :=
  ops.foldl (fun st op => step localtime_r op st) s

/-- The effect of one pass of the loop of `checkAlarms` on one alarm. -/
def tick (timeinfo : Tm) (alarm : Alarm) : Alarm :=
  if alarm.enabled && isDue timeinfo alarm && !alarm.repeated then
    { alarm with enabled := false }
  else alarm

/-- The alarm fires in a pass of the loop of `checkAlarms`. -/
def fires (timeinfo : Tm) (alarm : Alarm) : Bool :=
  alarm.enabled && isDue timeinfo alarm

/-! ## Sample data -/

/-- A sample `localtime_r`: local time is UTC. -/
def utc (now : Int) : Tm :=
  { tm_hour := (now / 3600 % 24).toNat
    tm_min := (now / 60 % 60).toNat
    tm_sec := (now % 60).toNat }

/-- An enabled one-shot alarm at 07:30. -/
def alarmA : Alarm := ⟨7, 30, bytes "day di", true, false⟩

/-- An enabled repeating alarm at 07:30. -/
def alarmB : Alarm := ⟨7, 30, bytes "tap the duc", true, true⟩

/-- A disabled one-shot alarm at 07:30. -/
def alarmC : Alarm := ⟨7, 30, bytes "cu", false, false⟩

/-- An enabled one-shot alarm at 06:15. -/
def alarmD : Alarm := ⟨6, 15, bytes "uong thuoc", true, false⟩

/-- An alarm whose hour is out of range. -/
def alarmBad : Alarm := ⟨24, 0, bytes "sai", true, false⟩

/-- An in-range alarm whose message has 250 bytes, none of them '|'. -/
def alarmLong : Alarm := ⟨7, 30, List.replicate 250 97, true, true⟩

/-- An in-range alarm whose message has an embedded NUL byte. -/
def alarmNul : Alarm := ⟨7, 30, [97, 0, 98], true, true⟩

/-- State of the singleton at start-up, before `init`: no alarm, no open handle. -/
def fresh : State :=
  { alarms_ := [], nvs_handle_ := none, last_check_time_ := 0, triggered := [], save_calls := 0 }

/-- What slot `i` of the storage contributes to a load: the alarm parsed from its
record, `none` when the blob is absent, empty or not pushed. -/
def slotAlarm (nvs : Nvs) (i : Nat) : Option Alarm :=
  match nvs.blob i with
  | none => none
  | some buffer =>
    if buffer.length > 0 then
      match parseRecord buffer with
      | .alarm a => some a
      | _ => none
    else none

/-- The reads of the loop body of `loadFromNVS` stay inside the blob: the blob
holds a terminating NUL, and when the record starts with `number:number` and
holds two delimiters, the byte `flag_start[3]` lies inside the blob. -/
def ReadsInBounds (buffer : Str) : Prop :=
  0 ∈ buffer ∧
  ∀ p1 len, sscanfTime buffer ≠ none → strchr buffer 124 = some p1 →
    strchr (buffer.drop (p1 + 1)) 124 = some len → p1 + 1 + len + 3 < buffer.length

/-- Every record that a load examines is read inside its blob. -/
def StorageInBounds (nvs : Nvs) : Prop :=
  ∀ i, i < min (nvs.count.getD 0) 10 → ∀ buffer, nvs.blob i = some buffer →
    buffer ≠ [] → ReadsInBounds buffer

/-- The record has the structure `hour:minute|message|flag|flag` of the alarm
`a`: two-digit hour and minute, a message without delimiter and NUL, flags
"0"/"1", and the terminating NUL. -/
def Structured (buffer : Str) (a : Alarm) : Prop :=
  a.hour < 100 ∧ a.minute < 100 ∧ 124 ∉ a.message ∧ 0 ∉ a.message ∧
    buffer = formatRecord a ++ [0]

/-- Eleven `addAlarm` calls with enabled alarms at 00:00, 01:00, ..., 10:00. -/
def elevenAdds : List Op :=
  (List.range 11).map (fun h => Op.addAlarm ⟨h, 0, bytes "bao thuc", true, false⟩)

/-- Storage holding one record whose hour and minute are out of range. -/
def nvsOutOfRange : Nvs :=
  { count := some 1
    blob := fun i => if i = 0 then some (bytes "99:99|x|1|0" ++ [0]) else none }

/-- Storage with two records that lack the structure `hour:minute|message|flag|flag`:
bytes between the minute and the delimiter, and a flag that is not "0"/"1". -/
def nvsLoose : Nvs :=
  { count := some 2
    blob := fun i =>
      if i = 0 then some (bytes "12:30xyz|msg|1|0" ++ [0])
      else if i = 1 then some (bytes "07:30||2|1" ++ [0])
      else none }

/-- Storage with four declared slots: a well-formed record, a record without
delimiters, an absent slot, and a well-formed record. -/
def nvsPartlyCorrupt : Nvs :=
  { count := some 4
    blob := fun i =>
      if i = 0 then some (recordBlob alarmA)
      else if i = 1 then some (bytes "hong" ++ [0])
      else if i = 3 then some (recordBlob alarmB)
      else none }

/-! ## Presentation: `getNextAlarmInfo` and `getAllAlarmsInfo` -/

/-- Decimal digits of a natural number, as bytes. -/
def digits (n : Nat) : Str := (Nat.toDigits 10 n).map Char.toNat

/-- Output of `printf("%d", n)`. -/
def fmtInt (n : Int) : Str :=
  if n < 0 then 45 :: digits n.natAbs else digits n.toNat

/-- Output of `printf("%02d", n)` for an `int` that may be negative. -/
def fmt02Int (n : Int) : Str :=
  if n < 0 then 45 :: digits n.natAbs else fmt02d n.toNat

/-- The value `current_minutes` of both presenters. -/
def currentMinutes (timeinfo : Tm) : Int :=
  (timeinfo.tm_hour : Int) * 60 + timeinfo.tm_min

/-- The value `diff` both presenters compute for an alarm: `alarm_minutes -
current_minutes`, plus `24 * 60` when negative. -/
def alarmDiff (current_minutes : Int) (alarm : Alarm) : Int :=
  let alarm_minutes : Int := (alarm.hour : Int) * 60 + alarm.minute
  let diff := alarm_minutes - current_minutes
  if diff < 0 then diff + 24 * 60 else diff

/-- One pass of the loop of `getNextAlarmInfo` on the pair (`min_diff`,
`next_alarm`). -/
def nextStep (current_minutes : Int) (acc : Int × Option Alarm) (alarm : Alarm) :
    Int × Option Alarm :=
  if !alarm.enabled then acc
  else if alarmDiff current_minutes alarm < acc.1 then
    (alarmDiff current_minutes alarm, some alarm)
  else acc

/-- The text `snprintf(buffer, 128, "%02d:%02d - %s", ...)` leaves in `buffer`. -/
def formatNext (alarm : Alarm) : Str :=
  (fmt02d alarm.hour ++ bytes ":" ++ fmt02d alarm.minute ++ bytes " - " ++
    c_str alarm.message).take 127

/-- The method `AlarmManager::getNextAlarmInfo`; `timeinfo` is the local time read
by the call. -/
def getNextAlarmInfo (timeinfo : Tm) (s : State) : Str :=
  if s.alarms_.isEmpty then bytes "Khong co bao thuc"
  else
    match (s.alarms_.foldl (nextStep (currentMinutes timeinfo)) (24 * 60, none)).2 with
    | some next_alarm => formatNext next_alarm
    | none => bytes "Khong co bao thuc"

/-- The first loop of `getAllAlarmsInfo`: the pairs (diff, alarm) of the enabled
alarms, in list order. -/
def collectEnabled (current_minutes : Int) : List Alarm → List (Int × Alarm)
  | [] => []
  | alarm :: rest =>
    if !alarm.enabled then collectEnabled current_minutes rest
    else (alarmDiff current_minutes alarm, alarm) :: collectEnabled current_minutes rest

/-- The text `snprintf(buffer, 256, "%d. %02d:%02d - %s%s (còn %dh%02dp)\n", ...)`
leaves in `buffer`. -/
def entryLine (count : Int) (alarm : Alarm) (hours_left mins_left : Int) : Str :=
  (fmtInt count ++ bytes ". " ++ fmt02d alarm.hour ++ bytes ":" ++ fmt02d alarm.minute ++
    bytes " - " ++ c_str alarm.message ++
    (if alarm.repeated then bytes " [Hàng ngày]" else []) ++
    bytes " (còn " ++ fmtInt hours_left ++ bytes "h" ++ fmt02Int mins_left ++
    bytes "p)\n").take 255

/-- The second loop of `getAllAlarmsInfo`: appends one line per entry to `result`,
numbering from `count`; `/` and `%` of C truncate toward zero. -/
def renderLoop : List (Int × Alarm) → Int → Str → Str
  | [], _, result => result
  | (diff, alarm) :: rest, count, result =>
    renderLoop rest (count + 1)
      (result ++ entryLine count alarm (diff.tdiv 60) (diff.tmod 60))

/-- The method `AlarmManager::getAllAlarmsInfo`; `timeinfo` is the local time read by
the call and `sort` the effect of `std::sort` with the comparator
`a.first < b.first`. -/
def getAllAlarmsInfo (sort : List (Int × Alarm) → List (Int × Alarm)) (timeinfo : Tm)
    (s : State) : Str :=
  if s.alarms_.isEmpty then bytes "Không có báo thức nào"
  else
    let sorted_alarms := collectEnabled (currentMinutes timeinfo) s.alarms_
    if sorted_alarms.isEmpty then bytes "Không có báo thức nào đang hoạt động"
    else renderLoop (sort sorted_alarms) 1 (bytes "Danh sách báo thức:\n")

/-- What the C++ standard guarantees of `std::sort` with the comparator
`a.first < b.first`: the result is a rearrangement of the input in which no
later element compares less than an earlier one. The order of elements with
equal keys is unspecified. -/
def IsStdSort (sort : List (Int × Alarm) → List (Int × Alarm)) : Prop :=
  ∀ l, (sort l).Perm l ∧ (sort l).Pairwise (fun a b => ¬ b.1 < a.1)

/-- A sort meeting the guarantee of `std::sort`. -/
def sampleSort (l : List (Int × Alarm)) : List (Int × Alarm) :=
  l.insertionSort (fun a b => a.1 ≤ b.1)

/-- The wrap-adjusted difference `(alarm_minutes - now_minutes) mod 1440`. -/
def wrapDiff (timeinfo : Tm) (alarm : Alarm) : Int :=
  (((alarm.hour : Int) * 60 + alarm.minute) - currentMinutes timeinfo) % 1440

/-- The enabled alarms with their wrap-adjusted differences, stable-sorted
ascending by the difference. -/
def listedEntries (timeinfo : Tm) (alarms : List Alarm) : List (Int × Alarm) :=
  ((alarms.filter (fun a => a.enabled)).map (fun a => (wrapDiff timeinfo a, a))).insertionSort
    (fun a b => a.1 ≤ b.1)

/-- The numbered lines for a list of entries: entry number `n` (from 1) shows its
alarm with `diff / 60` hours and `diff % 60` minutes left. -/
def numberedLines (entries : List (Int × Alarm)) : Str :=
  (List.zipWith (fun (n : Nat) (e : Int × Alarm) => entryLine n e.2 (e.1 / 60) (e.1 % 60))
    (List.range' 1 entries.length) entries).flatten

/-- The whole text of the format `"%d. %02d:%02d - %s%s (còn %dh%02dp)\n"` for
entry number `n`: time, message, the recurrence marker when repeating, and
`diff / 60` hours and `diff % 60` minutes left. -/
def fullLine (n : Nat) (alarm : Alarm) (diff : Int) : Str :=
  fmtInt n ++ bytes ". " ++ fmt02d alarm.hour ++ bytes ":" ++ fmt02d alarm.minute ++
    bytes " - " ++ alarm.message ++
    (if alarm.repeated then bytes " [Hàng ngày]" else []) ++
    bytes " (còn " ++ fmtInt (diff / 60) ++ bytes "h" ++ fmt02Int (diff % 60) ++ bytes "p)\n"

/-- The numbered lines for a list of entries, each shown in full. -/
def fullLines (entries : List (Int × Alarm)) : Str :=
  (List.zipWith (fun (n : Nat) (e : Int × Alarm) => fullLine n e.2 e.1)
    (List.range' 1 entries.length) entries).flatten

/-- A local time as `localtime_r` produces it (leap seconds aside). -/
def ValidTm (timeinfo : Tm) : Prop :=
  timeinfo.tm_hour ≤ 23 ∧ timeinfo.tm_min ≤ 59

instance (timeinfo : Tm) : Decidable (ValidTm timeinfo) := by
  unfold ValidTm; infer_instance

/-- Enabled alarms at 00:10 and at 08:00, and a disabled one at 23:55. -/
def alarmsNight : List Alarm :=
  [⟨8, 0, bytes "di lam", true, true⟩, ⟨23, 55, bytes "cu", false, true⟩,
    ⟨0, 10, bytes "ngu", true, false⟩]

/-! ## Lemmas on the operations -/

theorem remove_if_eq_filter (p : Alarm → Bool) (l : List Alarm) :
    remove_if p l = l.filter (fun a => !p a) := by
  induction l with
  | nil => rfl
  | cons a rest ih =>
    by_cases h : p a = true <;> simp [remove_if, h, ih]

theorem checkLoop_fst (ti : Tm) (l : List Alarm) :
    (checkLoop ti l).1 = l.map (tick ti) := by
  induction l with
  | nil => rfl
  | cons a rest ih =>
    simp only [checkLoop, List.map_cons, tick]
    rw [← ih]
    by_cases he : a.enabled = true <;> by_cases hd : isDue ti a = true <;>
      by_cases hr : a.repeated = true <;> simp [he, hd, hr]

theorem checkLoop_snd (ti : Tm) (l : List Alarm) :
    (checkLoop ti l).2 = l.filter (fires ti) := by
  induction l with
  | nil => rfl
  | cons a rest ih =>
    simp only [checkLoop, fires, List.filter_cons]
    rw [← ih]
    by_cases he : a.enabled = true <;> by_cases hd : isDue ti a = true <;> simp [he, hd]

@[simp] theorem saveToNVS_alarms (s : State) : (saveToNVS s).alarms_ = s.alarms_ := rfl

@[simp] theorem saveToNVS_last (s : State) :
    (saveToNVS s).last_check_time_ = s.last_check_time_ := rfl

@[simp] theorem saveToNVS_triggered (s : State) :
    (saveToNVS s).triggered = s.triggered := rfl

@[simp] theorem saveToNVS_save_calls (s : State) :
    (saveToNVS s).save_calls = s.save_calls + 1 := rfl

theorem cleanup_alarms (s : State) :
    (cleanupExpiredAlarms s).alarms_ = s.alarms_.filter (fun a => a.enabled || a.repeated) := by
  have hf : (fun a : Alarm => !(!a.enabled && !a.repeated)) = fun a => a.enabled || a.repeated := by
    funext a; cases a.enabled <;> cases a.repeated <;> rfl
  unfold cleanupExpiredAlarms
  simp only [remove_if_eq_filter, hf]
  split
  · rfl
  · rename_i h
    exact (List.filter_eq_self.mpr (List.filter_length_eq_length.mp (not_not.mp h))).symm

theorem cleanup_last (s : State) :
    (cleanupExpiredAlarms s).last_check_time_ = s.last_check_time_ := by
  unfold cleanupExpiredAlarms
  simp only
  split <;> rfl

theorem cleanup_triggered (s : State) :
    (cleanupExpiredAlarms s).triggered = s.triggered := by
  unfold cleanupExpiredAlarms
  simp only
  split <;> rfl

theorem checkAlarms_alarms (lt : Int → Tm) (now : Int) (s : State) :
    (checkAlarms lt now s).alarms_ =
      if now = s.last_check_time_ then s.alarms_
      else if s.alarms_.filter (fires (lt now)) ≠ [] then
        (s.alarms_.map (tick (lt now))).filter (fun a => a.enabled || a.repeated)
      else s.alarms_.map (tick (lt now)) := by
  unfold checkAlarms
  by_cases h : now = s.last_check_time_
  · simp [h]
  · simp only [h, if_false]
    rw [← checkLoop_fst, ← checkLoop_snd]
    rcases hc : checkLoop (lt now) s.alarms_ with ⟨l1, fired⟩
    simp only
    split
    · rw [cleanup_alarms]; rfl
    · rfl

theorem isDuplicateAlarm_false (s : State) (hour minute : Nat)
    (h : isDuplicateAlarm s hour minute = false) :
    ∀ a ∈ s.alarms_, ¬ (a.enabled = true ∧ a.hour = hour ∧ a.minute = minute) := by
  intro a ha hc
  have : isDuplicateAlarm s hour minute = true := by
    unfold isDuplicateAlarm
    rw [List.any_eq_true]
    exact ⟨a, ha, by simp [hc.1, hc.2.1, hc.2.2]⟩
  rw [h] at this
  cases this

theorem UniqueEnabled.append_one {l : List Alarm} (hl : UniqueEnabled l) (b : Alarm)
    (hb : ∀ a ∈ l, ¬ (a.enabled = true ∧ a.hour = b.hour ∧ a.minute = b.minute)) :
    UniqueEnabled (l ++ [b]) := by
  unfold UniqueEnabled at *
  rw [List.pairwise_append]
  refine ⟨hl, List.pairwise_singleton _ _, ?_⟩
  intro a ha c hc
  rw [List.mem_singleton] at hc
  subst hc
  intro hcon
  exact hb a ha ⟨hcon.1, hcon.2.2.1, hcon.2.2.2⟩

theorem UniqueEnabled.filter {l : List Alarm} (hl : UniqueEnabled l) (p : Alarm → Bool) :
    UniqueEnabled (l.filter p) :=
  List.Pairwise.sublist (List.filter_sublist l) hl

theorem tick_fields (ti : Tm) (a : Alarm) :
    (tick ti a).hour = a.hour ∧ (tick ti a).minute = a.minute ∧
      (tick ti a).message = a.message ∧ (tick ti a).repeated = a.repeated ∧
      ((tick ti a).enabled = true → a.enabled = true) := by
  unfold tick
  split <;> simp

theorem UniqueEnabled.map_tick {l : List Alarm} (hl : UniqueEnabled l) (ti : Tm) :
    UniqueEnabled (l.map (tick ti)) := by
  unfold UniqueEnabled at *
  rw [List.pairwise_map]
  refine List.Pairwise.imp ?_ hl
  intro a b hab hcon
  obtain ⟨ha1, ha2, _, _, ha5⟩ := tick_fields ti a
  obtain ⟨hb1, hb2, _, _, hb5⟩ := tick_fields ti b
  exact hab ⟨ha5 hcon.1, hb5 hcon.2.1, by rw [← ha1, ← hb1]; exact hcon.2.2.1,
    by rw [← ha2, ← hb2]; exact hcon.2.2.2⟩

theorem unique_parseResponse (text : Str) (s : State) (h : UniqueEnabled s.alarms_) :
    UniqueEnabled (parseResponse text s).alarms_ := by
  unfold parseResponse
  split
  · exact List.Pairwise.nil
  · split
    · exact h
    · split
      · exact h
      · split
        · exact h
        · split
          · exact h
          · split
            · exact h
            · rename_i hd
              simp only [saveToNVS_alarms]
              exact h.append_one _ (isDuplicateAlarm_false s _ _ (by simpa using hd))

theorem unique_addAlarm (alarm : Alarm) (s : State) (h : UniqueEnabled s.alarms_) :
    UniqueEnabled (addAlarm alarm s).alarms_ := by
  unfold addAlarm
  split
  · exact h
  · split
    · exact h
    · rename_i hd
      simp only [saveToNVS_alarms]
      exact h.append_one _ (isDuplicateAlarm_false s _ _ (by simpa using hd))

theorem unique_checkAlarms (lt : Int → Tm) (now : Int) (s : State)
    (h : UniqueEnabled s.alarms_) : UniqueEnabled (checkAlarms lt now s).alarms_ := by
  rw [checkAlarms_alarms]
  split
  · exact h
  · split
    · exact (h.map_tick _).filter _
    · exact h.map_tick _

theorem unique_cleanup (s : State) (h : UniqueEnabled s.alarms_) :
    UniqueEnabled (cleanupExpiredAlarms s).alarms_ := by
  rw [cleanup_alarms]; exact h.filter _

theorem unique_step (lt : Int → Tm) (op : Op) (s : State) (h : UniqueEnabled s.alarms_) :
    UniqueEnabled (step lt op s).alarms_ := by
  cases op with
  | parseResponse text => exact unique_parseResponse text s h
  | addAlarm alarm => exact unique_addAlarm alarm s h
  | checkAlarms now => exact unique_checkAlarms lt now s h
  | cleanupExpiredAlarms => exact unique_cleanup s h
  | clearAll => exact List.Pairwise.nil

theorem unique_run (lt : Int → Tm) (ops : List Op) (s : State) (h : UniqueEnabled s.alarms_) :
    UniqueEnabled (run lt ops s).alarms_ := by
  induction ops generalizing s with
  | nil => exact h
  | cons op rest ih => exact ih _ (unique_step lt op s h)

theorem uniqueEnabled_iff_count (l : List Alarm) :
    UniqueEnabled l ↔ ∀ hour minute, (enabledAt l hour minute).length ≤ 1 := by
  induction l with
  | nil => simp [UniqueEnabled, enabledAt]
  | cons a rest ih =>
    have hcons : UniqueEnabled (a :: rest) ↔
        (∀ b ∈ rest, ¬ (a.enabled = true ∧ b.enabled = true ∧ a.hour = b.hour ∧
          a.minute = b.minute)) ∧ UniqueEnabled rest := by
      unfold UniqueEnabled; exact List.pairwise_cons
    rw [hcons, ih]
    constructor
    · rintro ⟨h1, h2⟩ hour minute
      unfold enabledAt at *
      rw [List.filter_cons]
      split
      · rename_i hp
        simp only [Bool.and_eq_true, beq_iff_eq] at hp
        have : rest.filter (fun a => a.enabled && a.hour == hour && a.minute == minute) = [] := by
          rw [List.filter_eq_nil_iff]
          intro b hb hq
          simp only [Bool.and_eq_true, beq_iff_eq] at hq
          exact h1 b hb ⟨hp.1.1, hq.1.1, by rw [hp.1.2, hq.1.2], by rw [hp.2, hq.2]⟩
        simp [this]
      · exact h2 hour minute
    · intro h
      constructor
      · intro b hb hcon
        have := h a.hour a.minute
        unfold enabledAt at this
        rw [List.filter_cons] at this
        simp only [hcon.1, beq_self_eq_true, Bool.and_self, if_true, List.length_cons] at this
        have hmem : b ∈ rest.filter (fun x => x.enabled && x.hour == a.hour && x.minute == a.minute) := by
          rw [List.mem_filter]
          exact ⟨hb, by simp [hcon.2.1, hcon.2.2.1, hcon.2.2.2]⟩
        have := List.length_pos_of_mem hmem
        omega
      · intro hour minute
        have := h hour minute
        unfold enabledAt at *
        rw [List.filter_cons] at this
        split at this
        · simp only [List.length_cons] at this; omega
        · exact this

theorem inRange_append_one {l : List Alarm} (hl : InRange l) (b : Alarm)
    (hb : b.hour ≤ 23 ∧ b.minute ≤ 59) : InRange (l ++ [b]) := by
  intro a ha
  rw [List.mem_append, List.mem_singleton] at ha
  rcases ha with ha | ha
  · exact hl a ha
  · subst ha; exact hb

theorem inRange_filter {l : List Alarm} (hl : InRange l) (p : Alarm → Bool) :
    InRange (l.filter p) :=
  fun a ha => hl a (List.mem_of_mem_filter ha)

theorem inRange_map_tick {l : List Alarm} (hl : InRange l) (ti : Tm) :
    InRange (l.map (tick ti)) := by
  intro a ha
  rw [List.mem_map] at ha
  obtain ⟨b, hb, rfl⟩ := ha
  obtain ⟨h1, h2, _⟩ := tick_fields ti b
  rw [h1, h2]
  exact hl b hb

theorem inRange_addAlarm (alarm : Alarm) (s : State) (h : InRange s.alarms_) :
    InRange (addAlarm alarm s).alarms_ := by
  unfold addAlarm
  split
  · exact h
  · rename_i hr
    split
    · exact h
    · simp only [saveToNVS_alarms]
      refine inRange_append_one h _ ?_
      simp only [Bool.or_eq_true, decide_eq_true_eq, not_or, not_lt] at hr
      exact hr

theorem inRange_parseResponse (text : Str) (s : State) (h : InRange s.alarms_) :
    InRange (parseResponse text s).alarms_ := by
  unfold parseResponse
  split
  · intro a ha; cases ha
  · split
    · exact h
    · split
      · exact h
      · split
        · exact h
        · split
          · exact h
          · rename_i hr
            split
            · exact h
            · simp only [saveToNVS_alarms]
              refine inRange_append_one h _ ?_
              simp only [Bool.or_eq_true, decide_eq_true_eq, not_or, not_lt] at hr
              exact hr

theorem inRange_checkAlarms (lt : Int → Tm) (now : Int) (s : State)
    (h : InRange s.alarms_) : InRange (checkAlarms lt now s).alarms_ := by
  rw [checkAlarms_alarms]
  split
  · exact h
  · split
    · exact inRange_filter (inRange_map_tick h _) _
    · exact inRange_map_tick h _

theorem inRange_cleanup (s : State) (h : InRange s.alarms_) :
    InRange (cleanupExpiredAlarms s).alarms_ := by
  rw [cleanup_alarms]; exact inRange_filter h _

theorem addAlarm_of_duplicate (alarm : Alarm) (s : State)
    (h : isDuplicateAlarm s alarm.hour alarm.minute = true) : addAlarm alarm s = s := by
  unfold addAlarm
  simp only [h, if_true, ite_self]

theorem cleanup_save_calls (s : State) :
    (cleanupExpiredAlarms s).save_calls =
      s.save_calls + (if s.alarms_.any (fun a => !a.enabled && !a.repeated) then 1 else 0) := by
  unfold cleanupExpiredAlarms
  simp only [remove_if_eq_filter]
  split
  · rename_i h
    have hex : s.alarms_.any (fun a => !a.enabled && !a.repeated) = true := by
      by_contra hc
      apply h
      rw [List.filter_length_eq_length]
      intro a ha
      rw [Bool.not_eq_true, List.any_eq_false] at hc
      have := hc a ha
      rw [Bool.not_eq_true] at this
      rw [this]; rfl
    simp [hex]
  · rename_i h
    have hall := List.filter_length_eq_length.mp (not_not.mp h)
    have hex : s.alarms_.any (fun a => !a.enabled && !a.repeated) = false := by
      rw [List.any_eq_false]
      intro a ha
      have := hall a ha
      rw [Bool.not_eq_true'] at this
      rw [this]; simp
    simp [hex]

theorem checkAlarms_last (lt : Int → Tm) (now : Int) (s : State) :
    (checkAlarms lt now s).last_check_time_ = now := by
  unfold checkAlarms
  by_cases h : now = s.last_check_time_
  · simp only [h, if_true]
  · simp only [h, if_false]
    rcases checkLoop (lt now) s.alarms_ with ⟨l1, fired⟩
    simp only
    split
    · rw [cleanup_last]; rfl
    · rfl

theorem checkAlarms_triggered (lt : Int → Tm) (now : Int) (s : State) :
    (checkAlarms lt now s).triggered =
      if now = s.last_check_time_ then s.triggered
      else s.triggered ++ s.alarms_.filter (fires (lt now)) := by
  unfold checkAlarms
  by_cases h : now = s.last_check_time_
  · simp only [h, if_true]
  · simp only [h, if_false]
    rw [← checkLoop_snd]
    rcases checkLoop (lt now) s.alarms_ with ⟨l1, fired⟩
    simp only
    split
    · rw [cleanup_triggered]; rfl
    · rfl

theorem tick_keep (ti : Tm) (hsec : ti.tm_sec = 0) (a : Alarm) :
    ((tick ti a).enabled || (tick ti a).repeated) =
      !(!a.repeated && (!a.enabled || (a.hour == ti.tm_hour && a.minute == ti.tm_min))) := by
  rcases a with ⟨h, m, msg, e, r⟩
  simp only [tick, isDue, hsec]
  cases e <;> cases r <;> by_cases h1 : h = ti.tm_hour <;> by_cases h2 : m = ti.tm_min <;>
    simp [h1, h2]

theorem tick_eq_self_of_keep (ti : Tm) (a : Alarm)
    (hk : ((tick ti a).enabled || (tick ti a).repeated) = true) : tick ti a = a := by
  unfold tick at *
  split
  · rename_i hc
    rw [if_pos hc] at hk
    exfalso
    revert hc hk
    rcases a with ⟨h, m, msg, e, r⟩
    cases e <;> cases r <;> simp
  · rfl

/-! ## The claims -/

/-- C1. Uniqueness invariant: if the alarm list has at most one enabled alarm
per (hour, minute), it still has after `parseResponse` of any text, `addAlarm`
of any alarm, `checkAlarms` at any clock value, `cleanupExpiredAlarms` and
`clearAll`; hence the list reached from an empty list by any sequence of these
operations has at most one enabled alarm per (hour, minute). -/
theorem uniqueness_invariant (localtime_r : Int → Tm) (s : State) (text : Str)
    (alarm : Alarm) (now : Int) (ops : List Op) (h : UniqueEnabled s.alarms_) :
    UniqueEnabled (parseResponse text s).alarms_ ∧
    UniqueEnabled (addAlarm alarm s).alarms_ ∧
    UniqueEnabled (checkAlarms localtime_r now s).alarms_ ∧
    UniqueEnabled (cleanupExpiredAlarms s).alarms_ ∧
    UniqueEnabled (clearAll s).alarms_ ∧
    (∀ s0 : State, s0.alarms_ = [] →
      UniqueEnabled (run localtime_r ops s0).alarms_ ∧
      ∀ hour minute, (enabledAt (run localtime_r ops s0).alarms_ hour minute).length ≤ 1) :=
  ⟨unique_parseResponse text s h, unique_addAlarm alarm s h,
    unique_checkAlarms localtime_r now s h, unique_cleanup s h, List.Pairwise.nil,
    fun s0 h0 =>
      have hu := unique_run localtime_r ops s0 (by rw [h0]; exact List.Pairwise.nil)
      ⟨hu, (uniqueEnabled_iff_count _).mp hu⟩⟩

theorem uniqueness_invariant_witness :
    UniqueEnabled (mkState [alarmA, alarmC, alarmD]).alarms_ ∧
    UniqueEnabled (parseResponse (bytes "bao thuc 7h30") (mkState [alarmA, alarmC, alarmD])).alarms_ ∧
    UniqueEnabled (addAlarm alarmB (mkState [alarmA, alarmC, alarmD])).alarms_ ∧
    UniqueEnabled (run utc [.addAlarm alarmA, .addAlarm alarmB, .checkAlarms 27000,
      .parseResponse (bytes "bao thuc 7h30")] (mkState [])).alarms_ :=
  have h := uniqueness_invariant utc (mkState [alarmA, alarmC, alarmD]) (bytes "bao thuc 7h30")
    alarmB 27000 [.addAlarm alarmA, .addAlarm alarmB, .checkAlarms 27000,
      .parseResponse (bytes "bao thuc 7h30")] (by decide)
  ⟨by decide, h.1, h.2.1, (h.2.2.2.2.2 (mkState []) rfl).1⟩

/-- C2. Range invariant on creation: `addAlarm` of an alarm with hour > 23 or
minute > 59 changes nothing; `parseResponse` of a text whose extracted time
has hour > 23 or minute > 59 changes nothing (a time is extracted only from a
text without a delete-all marker, which is handled before any extraction);
and if every alarm of the list has hour ≤ 23 and minute ≤ 59, that still
holds after `addAlarm`, `parseResponse`, `checkAlarms`, `cleanupExpiredAlarms`
and `clearAll`. -/
theorem range_invariant (localtime_r : Int → Tm) (s : State) (text : Str)
    (alarm : Alarm) (now : Int) :
    ((alarm.hour > 23 ∨ alarm.minute > 59) → addAlarm alarm s = s) ∧
    (∀ hour minute, isDeleteRequest text = false → parseTime text = some (hour, minute) →
      (hour > 23 ∨ minute > 59) → parseResponse text s = s) ∧
    (InRange s.alarms_ →
      InRange (addAlarm alarm s).alarms_ ∧
      InRange (parseResponse text s).alarms_ ∧
      InRange (checkAlarms localtime_r now s).alarms_ ∧
      InRange (cleanupExpiredAlarms s).alarms_ ∧
      InRange (clearAll s).alarms_) := by
  refine ⟨?_, ?_, ?_⟩
  · intro h
    unfold addAlarm
    rw [if_pos]
    simpa using h
  · intro hour minute hdel ht hr
    unfold parseResponse
    simp only [hdel, ht, Bool.false_eq_true, if_false]
    split
    · rfl
    · split
      · rfl
      · rw [if_pos]
        simpa using hr
  · intro h
    exact ⟨inRange_addAlarm alarm s h, inRange_parseResponse text s h,
      inRange_checkAlarms localtime_r now s h, inRange_cleanup s h,
      fun a ha => by cases ha⟩

theorem range_invariant_witness :
    addAlarm alarmBad (mkState [alarmA, alarmD]) = mkState [alarmA, alarmD] ∧
    parseResponse (bytes "bao thuc 25h") (mkState [alarmA, alarmD]) = mkState [alarmA, alarmD] ∧
    InRange (parseResponse (bytes "bao thuc 25h") (mkState [alarmA, alarmD])).alarms_ ∧
    InRange (checkAlarms utc 27000 (mkState [alarmA, alarmD])).alarms_ :=
  have h := range_invariant utc (mkState [alarmA, alarmD]) (bytes "bao thuc 25h") alarmBad 27000
  have h3 := h.2.2 (by decide)
  ⟨h.1 (Or.inl (by decide)), h.2.1 25 0 (by decide) (by decide) (Or.inl (by decide)),
    h3.2.1, h3.2.2.1⟩

/-- C3. For an in-range (hour, minute) with no enabled alarm in the list,
`addAlarm` of an enabled alarm at that time appends it, after which the list
holds exactly that one enabled alarm at (hour, minute); a second `addAlarm` of
any alarm at the same time is rejected and leaves the state, hence the size
and contents of the list, unchanged. -/
theorem addAlarm_once (s : State) (alarm second : Alarm)
    (hh : alarm.hour ≤ 23) (hm : alarm.minute ≤ 59) (he : alarm.enabled = true)
    (hfree : enabledAt s.alarms_ alarm.hour alarm.minute = [])
    (hs : second.hour = alarm.hour ∧ second.minute = alarm.minute) :
    (addAlarm alarm s).alarms_ = s.alarms_ ++ [alarm] ∧
    enabledAt (addAlarm alarm s).alarms_ alarm.hour alarm.minute = [alarm] ∧
    addAlarm second (addAlarm alarm s) = addAlarm alarm s ∧
    (addAlarm second (addAlarm alarm s)).alarms_.length = s.alarms_.length + 1 := by
  have hnd : isDuplicateAlarm s alarm.hour alarm.minute = false := by
    unfold isDuplicateAlarm
    rw [List.any_eq_false]
    intro a ha hp
    have : a ∈ enabledAt s.alarms_ alarm.hour alarm.minute :=
      List.mem_filter.mpr ⟨ha, hp⟩
    rw [hfree] at this
    cases this
  have hadd : (addAlarm alarm s).alarms_ = s.alarms_ ++ [alarm] := by
    unfold addAlarm
    rw [if_neg (by simp; omega), if_neg (by simp [hnd])]
    rfl
  have hdup : isDuplicateAlarm (addAlarm alarm s) second.hour second.minute = true := by
    unfold isDuplicateAlarm
    rw [hadd, List.any_eq_true]
    exact ⟨alarm, by simp, by simp [he, hs.1, hs.2]⟩
  have hrej : addAlarm second (addAlarm alarm s) = addAlarm alarm s :=
    addAlarm_of_duplicate second _ hdup
  refine ⟨hadd, ?_, hrej, ?_⟩
  · rw [hadd]
    unfold enabledAt at *
    rw [List.filter_append, hfree]
    simp [he]
  · rw [hrej, hadd]; simp

theorem addAlarm_once_witness :
    (addAlarm alarmA (mkState [alarmC, alarmD])).alarms_ = [alarmC, alarmD, alarmA] ∧
    enabledAt (addAlarm alarmA (mkState [alarmC, alarmD])).alarms_ 7 30 = [alarmA] ∧
    addAlarm alarmB (addAlarm alarmA (mkState [alarmC, alarmD])) =
      addAlarm alarmA (mkState [alarmC, alarmD]) :=
  have h := addAlarm_once (mkState [alarmC, alarmD]) alarmA alarmB (by decide) (by decide)
    rfl (by decide) ⟨rfl, rfl⟩
  ⟨h.1, h.2.1, h.2.2.1⟩

/-- C5. The pass `cleanupExpiredAlarms` leaves exactly the alarms with
enabled or repeated set, in their original order; no alarm that is both
disabled and non-repeating survives; and `saveToNVS` is called (once) if and
only if at least one alarm was removed, the state being untouched otherwise. -/
theorem cleanup_spec (s : State) :
    (cleanupExpiredAlarms s).alarms_ = s.alarms_.filter (fun a => a.enabled || a.repeated) ∧
    (∀ a ∈ (cleanupExpiredAlarms s).alarms_, ¬ (a.enabled = false ∧ a.repeated = false)) ∧
    ((cleanupExpiredAlarms s).save_calls = s.save_calls + 1 ↔
      ∃ a ∈ s.alarms_, a.enabled = false ∧ a.repeated = false) ∧
    ((cleanupExpiredAlarms s).save_calls = s.save_calls ↔
      ¬ ∃ a ∈ s.alarms_, a.enabled = false ∧ a.repeated = false) ∧
    ((cleanupExpiredAlarms s).alarms_.length < s.alarms_.length ↔
      ∃ a ∈ s.alarms_, a.enabled = false ∧ a.repeated = false) := by
  have hany : s.alarms_.any (fun a => !a.enabled && !a.repeated) = true ↔
      ∃ a ∈ s.alarms_, a.enabled = false ∧ a.repeated = false := by
    rw [List.any_eq_true]
    constructor
    · rintro ⟨a, ha, hp⟩; exact ⟨a, ha, by simpa using hp⟩
    · rintro ⟨a, ha, hp⟩; exact ⟨a, ha, by simpa using hp⟩
  refine ⟨cleanup_alarms s, ?_, ?_, ?_, ?_⟩
  · intro a ha hc
    rw [cleanup_alarms, List.mem_filter] at ha
    simp [hc.1, hc.2] at ha
  · rw [cleanup_save_calls, ← hany]
    by_cases h : s.alarms_.any (fun a => !a.enabled && !a.repeated) = true <;> simp [h]
  · rw [cleanup_save_calls, ← hany]
    by_cases h : s.alarms_.any (fun a => !a.enabled && !a.repeated) = true <;> simp [h]
  · rw [cleanup_alarms, ← hany]
    constructor
    · intro hlt
      by_contra hc
      rw [Bool.not_eq_true, List.any_eq_false] at hc
      have : (s.alarms_.filter (fun a => a.enabled || a.repeated)).length = s.alarms_.length := by
        rw [List.filter_length_eq_length]
        intro a ha
        have := hc a ha
        revert this
        rcases a with ⟨_, _, _, e, r⟩
        cases e <;> cases r <;> simp
      omega
    · intro hex
      have hle := List.length_filter_le (fun a : Alarm => a.enabled || a.repeated) s.alarms_
      rcases Nat.lt_or_ge (s.alarms_.filter (fun a => a.enabled || a.repeated)).length
        s.alarms_.length with hlt | hge
      · exact hlt
      · exfalso
        have heq := List.filter_length_eq_length.mp (Nat.le_antisymm hle hge)
        rw [List.any_eq_true] at hex
        obtain ⟨a, ha, hp⟩ := hex
        have := heq a ha
        revert hp this
        rcases a with ⟨_, _, _, e, r⟩
        cases e <;> cases r <;> simp

theorem cleanup_spec_witness :
    (cleanupExpiredAlarms (mkState [alarmA, alarmC, alarmB])).alarms_ = [alarmA, alarmB] ∧
    (cleanupExpiredAlarms (mkState [alarmA, alarmC, alarmB])).save_calls = 1 :=
  have h := cleanup_spec (mkState [alarmA, alarmC, alarmB])
  ⟨h.1.trans (by decide), h.2.2.1.mpr ⟨alarmC, by decide, rfl, rfl⟩⟩

/-- C6. Firing lifecycle: when `checkAlarms` runs at a new second whose local
time is H:M:00 and at least one enabled alarm at (H, M) fires, the list after
the call is the original list without the non-repeating alarms that fired or
were already disabled, the others unchanged and in order; an enabled
non-repeating alarm that fired is absent afterwards, and an enabled repeating
alarm that fired is still present (and enabled). The alarms handed to
`triggerAlarm` are the enabled alarms at (H, M), in order. -/
theorem firing_lifecycle (localtime_r : Int → Tm) (now : Int) (s : State)
    (hnew : now ≠ s.last_check_time_) (hsec : (localtime_r now).tm_sec = 0)
    (hfire : ∃ a ∈ s.alarms_, a.enabled = true ∧ a.hour = (localtime_r now).tm_hour ∧
      a.minute = (localtime_r now).tm_min) :
    (checkAlarms localtime_r now s).alarms_ =
      s.alarms_.filter (fun a => !(!a.repeated &&
        (!a.enabled || (a.hour == (localtime_r now).tm_hour &&
          a.minute == (localtime_r now).tm_min)))) ∧
    (checkAlarms localtime_r now s).triggered =
      s.triggered ++ enabledAt s.alarms_ (localtime_r now).tm_hour (localtime_r now).tm_min ∧
    (∀ a ∈ s.alarms_, a.enabled = true → a.hour = (localtime_r now).tm_hour →
      a.minute = (localtime_r now).tm_min →
      (a.repeated = false → a ∉ (checkAlarms localtime_r now s).alarms_) ∧
      (a.repeated = true → a ∈ (checkAlarms localtime_r now s).alarms_)) := by
  have hfires : ∀ a : Alarm, fires (localtime_r now) a =
      (a.enabled && a.hour == (localtime_r now).tm_hour &&
        a.minute == (localtime_r now).tm_min) := by
    intro a; simp [fires, isDue, hsec, Bool.and_assoc]
  have hne : s.alarms_.filter (fires (localtime_r now)) ≠ [] := by
    obtain ⟨a, ha, he, hh, hm⟩ := hfire
    intro hnil
    have : a ∈ s.alarms_.filter (fires (localtime_r now)) :=
      List.mem_filter.mpr ⟨ha, by rw [hfires]; simp [he, hh, hm]⟩
    rw [hnil] at this
    cases this
  have hset : (checkAlarms localtime_r now s).alarms_ =
      s.alarms_.filter (fun a => !(!a.repeated &&
        (!a.enabled || (a.hour == (localtime_r now).tm_hour &&
          a.minute == (localtime_r now).tm_min)))) := by
    rw [checkAlarms_alarms, if_neg hnew, if_pos hne, List.filter_map]
    have hkeep : ∀ a : Alarm,
        ((fun a : Alarm => a.enabled || a.repeated) ∘ tick (localtime_r now)) a =
          !(!a.repeated && (!a.enabled || (a.hour == (localtime_r now).tm_hour &&
            a.minute == (localtime_r now).tm_min))) := fun a => tick_keep _ hsec a
    rw [List.filter_congr (fun a _ => hkeep a)]
    conv_rhs => rw [← List.map_id (List.filter _ s.alarms_)]
    apply List.map_congr_left
    intro a ha
    rw [List.mem_filter, ← tick_keep _ hsec a] at ha
    exact tick_eq_self_of_keep _ a ha.2
  refine ⟨hset, ?_, ?_⟩
  · rw [checkAlarms_triggered, if_neg hnew]
    congr 1
    exact List.filter_congr (fun a _ => hfires a)
  · intro a ha he hh hm
    rw [hset]
    constructor
    · intro hr hmem
      rw [List.mem_filter] at hmem
      simp [hr, he, hh, hm] at hmem
    · intro hr
      rw [List.mem_filter]
      exact ⟨ha, by simp [hr]⟩

theorem firing_lifecycle_witness :
    (checkAlarms utc 27000 (mkState [alarmA, alarmD, alarmC, alarmB])).alarms_ =
      [alarmD, alarmB] ∧
    (checkAlarms utc 27000 (mkState [alarmA, alarmD, alarmC, alarmB])).triggered =
      [alarmA, alarmB] :=
  have h := firing_lifecycle utc 27000 (mkState [alarmA, alarmD, alarmC, alarmB])
    (by decide) (by decide) ⟨alarmA, by decide, rfl, by decide, by decide⟩
  ⟨h.1.trans (by decide), h.2.1.trans (by decide)⟩

/-- C7. Tick idempotence: a `checkAlarms` call at clock value `now` made right
after another `checkAlarms` call at the same `now` changes nothing: the alarm
list, `last_check_time_`, the storage, the alarms handed to `triggerAlarm` and
the number of `saveToNVS` calls are those left by the first call, so two ticks
within one second fire each alarm at most once. -/
theorem tick_idempotent (localtime_r : Int → Tm) (now : Int) (s : State) :
    checkAlarms localtime_r now (checkAlarms localtime_r now s) =
      checkAlarms localtime_r now s ∧
    (checkAlarms localtime_r now (checkAlarms localtime_r now s)).triggered =
      (checkAlarms localtime_r now s).triggered ∧
    (checkAlarms localtime_r now (checkAlarms localtime_r now s)).save_calls =
      (checkAlarms localtime_r now s).save_calls ∧
    (checkAlarms localtime_r now (checkAlarms localtime_r now s)).alarms_ =
      (checkAlarms localtime_r now s).alarms_ ∧
    (checkAlarms localtime_r now (checkAlarms localtime_r now s)).last_check_time_ =
      (checkAlarms localtime_r now s).last_check_time_ := by
  have h : checkAlarms localtime_r now (checkAlarms localtime_r now s) =
      checkAlarms localtime_r now s := by
    generalize hs1 : checkAlarms localtime_r now s = s1
    have hl : s1.last_check_time_ = now := by
      rw [← hs1]; exact checkAlarms_last localtime_r now s
    unfold checkAlarms
    rw [if_pos hl.symm]
  exact ⟨h, by rw [h], by rw [h], by rw [h], by rw [h]⟩


/-! ## Save and reload -/

theorem fmt02d_lt (n : Nat) (h : n < 100) : fmt02d n = [48 + n / 10, 48 + n % 10] := by
  interval_cases n <;> rfl

theorem scanSign_digit (d : Nat) (t : Str) (h : isdigit d = true) :
    scanSign (d :: t) = (false, d :: t) := by
  have hb : 48 ≤ d ∧ d ≤ 57 := by simpa [isdigit] using h
  unfold scanSign
  split
  · rename_i heq; injection heq with h1 _; omega
  · rename_i heq; injection heq with h1 _; omega
  · rfl

theorem scanHhu_two_digits (d1 d2 c : Nat) (rest : Str) (h1 : isdigit d1 = true)
    (h2 : isdigit d2 = true) (hc : isdigit c = false) :
    scanHhu (d1 :: d2 :: c :: rest) = some ((d1 - 48) * 10 + (d2 - 48), c :: rest) := by
  have hb1 : 48 ≤ d1 ∧ d1 ≤ 57 := by simpa [isdigit] using h1
  have hb2 : 48 ≤ d2 ∧ d2 ≤ 57 := by simpa [isdigit] using h2
  have hs : isspace d1 = false := by
    simp [isspace]; omega
  unfold scanHhu
  rw [List.dropWhile_cons_of_neg (by simp [hs]), scanSign_digit d1 _ h1]
  simp only [List.takeWhile_cons, h1, h2, hc, List.dropWhile_cons, if_true]
  simp only [strtoul, stoi, List.foldl_cons, List.foldl_nil, Bool.false_eq_true, if_false,
    Nat.zero_mul, Nat.zero_add, ge_iff_le, reduceCtorEq]
  rw [if_neg (by omega), Nat.mod_eq_of_lt (by omega)]


theorem strchr_append (msg rest : Str) (c : Nat) (hc : c ≠ 0)
    (h : ∀ x ∈ msg, x ≠ 0 ∧ x ≠ c) : strchr (msg ++ c :: rest) c = some msg.length := by
  induction msg with
  | nil => simp [strchr, hc]
  | cons x xs ih =>
    have hx := h x (List.mem_cons_self _ _)
    simp only [List.cons_append, strchr, hx.1, hx.2, if_false, List.length_cons]
    rw [show xs.append (c :: rest) = xs ++ c :: rest from rfl,
      ih (fun y hy => h y (List.mem_cons_of_mem _ hy))]
    rfl

theorem getD_skip (pre msg tail : Str) (k : Nat) :
    (pre ++ (msg ++ tail)).getD (pre.length + msg.length + k) 0 = tail.getD k 0 := by
  rw [List.getD_eq_getElem?_getD, List.getD_eq_getElem?_getD,
    List.getElem?_append_right (by omega), List.getElem?_append_right (by omega)]
  congr 2
  omega

theorem isdigit_fmt (n : Nat) (h : n < 10) : isdigit (48 + n) = true := by
  simp [isdigit]; omega

theorem sscanfTime_record (hour minute : Nat) (rest : Str) (hh : hour < 100)
    (hm : minute < 100) :
    sscanfTime (fmt02d hour ++ [58] ++ fmt02d minute ++ [124] ++ rest) = some (hour, minute) := by
  rw [fmt02d_lt hour hh, fmt02d_lt minute hm]
  simp only [List.cons_append, List.nil_append, List.append_assoc]
  unfold sscanfTime
  rw [scanHhu_two_digits _ _ 58 _ (isdigit_fmt _ (Nat.div_lt_of_lt_mul (by omega)))
    (isdigit_fmt _ (Nat.mod_lt _ (by omega))) (by decide)]
  simp only
  rw [scanHhu_two_digits _ _ 124 _ (isdigit_fmt _ (Nat.div_lt_of_lt_mul (by omega)))
    (isdigit_fmt _ (Nat.mod_lt _ (by omega))) (by decide)]
  simp only [Nat.add_sub_cancel_left]
  congr 2 <;> omega

theorem parseRecord_formatRecord (a : Alarm) (hh : a.hour < 100) (hm : a.minute < 100)
    (hbar : 124 ∉ a.message) (hnul : 0 ∉ a.message) :
    parseRecord (formatRecord a ++ [0]) = .alarm a := by
  have hcs : c_str a.message = a.message := by
    unfold c_str
    rw [List.takeWhile_eq_self_iff]
    intro x hx
    simp only [ne_eq, decide_not, Bool.not_eq_true', decide_eq_false_iff_not]
    intro h0; subst h0; exact hnul hx
  have hflag : ∀ b : Bool, ∃ f, fmtFlag b = [f] ∧ (f == 49) = b := by
    intro b; cases b
    · exact ⟨48, rfl, rfl⟩
    · exact ⟨49, rfl, rfl⟩
  obtain ⟨fe, hfe, hfe2⟩ := hflag a.enabled
  obtain ⟨fr, hfr, hfr2⟩ := hflag a.repeated
  have hfmt : formatRecord a =
      [48 + a.hour / 10, 48 + a.hour % 10, 58, 48 + a.minute / 10, 48 + a.minute % 10, 124] ++
        (a.message ++ 124 :: [fe, 124, fr]) := by
    unfold formatRecord
    rw [fmt02d_lt _ hh, fmt02d_lt _ hm, hcs, hfe, hfr]
    simp
  have hscan : sscanfTime (formatRecord a ++ [0]) = some (a.hour, a.minute) := by
    unfold formatRecord
    have := sscanfTime_record a.hour a.minute
      (c_str a.message ++ [124] ++ fmtFlag a.enabled ++ [124] ++ fmtFlag a.repeated ++ [0]) hh hm
    simpa [List.append_assoc] using this
  have hmsg : ∀ x ∈ a.message, x ≠ 0 ∧ x ≠ 124 := by
    intro x hx
    exact ⟨fun h => hnul (h ▸ hx), fun h => hbar (h ▸ hx)⟩
  have hterm : ¬ (0 ∉ formatRecord a ++ [0]) := by simp
  unfold parseRecord
  rw [if_neg hterm, hscan]
  simp only
  rw [hfmt]
  have h1 : strchr ([48 + a.hour / 10, 48 + a.hour % 10, 58, 48 + a.minute / 10,
      48 + a.minute % 10, 124] ++ (a.message ++ 124 :: [fe, 124, fr]) ++ [0]) 124 =
      some 5 := by
    have := strchr_append [48 + a.hour / 10, 48 + a.hour % 10, 58, 48 + a.minute / 10,
      48 + a.minute % 10] ((a.message ++ 124 :: [fe, 124, fr]) ++ [0]) 124 (by decide)
      (by
        intro x hx
        simp only [List.mem_cons, List.mem_singleton, List.not_mem_nil, or_false] at hx
        rcases hx with h | h | h | h | h <;> subst h <;> omega)
    simpa using this
  rw [h1]
  simp only
  have hdrop : List.drop (5 + 1) ([48 + a.hour / 10, 48 + a.hour % 10, 58, 48 + a.minute / 10,
      48 + a.minute % 10, 124] ++ (a.message ++ 124 :: [fe, 124, fr]) ++ [0]) =
      a.message ++ 124 :: [fe, 124, fr, 0] := by
    simp
  rw [hdrop, strchr_append a.message _ 124 (by decide) hmsg]
  simp only
  have hin : 5 + 1 + a.message.length + 3 < ([48 + a.hour / 10, 48 + a.hour % 10, 58,
      48 + a.minute / 10, 48 + a.minute % 10, 124] ++ (a.message ++ 124 :: [fe, 124, fr]) ++
      [0]).length := by
    simp only [List.length_append, List.length_cons, List.length_nil]
    omega
  rw [if_pos hin]
  have hfl : ∀ k, List.getD
      ([48 + a.hour / 10, 48 + a.hour % 10, 58, 48 + a.minute / 10, 48 + a.minute % 10, 124] ++
        (a.message ++ [124, fe, 124, fr]) ++ [0]) (5 + 1 + List.length a.message + k) 0 =
      List.getD [124, fe, 124, fr, 0] k 0 := by
    intro k
    have := getD_skip [48 + a.hour / 10, 48 + a.hour % 10, 58, 48 + a.minute / 10,
      48 + a.minute % 10, 124] a.message [124, fe, 124, fr, 0] k
    simpa using this
  rw [hfl 1, hfl 3, List.take_left']
  · rcases a with ⟨h, m, msg, e, r⟩
    simp only [List.getD_cons_succ, List.getD_cons_zero] at *
    rw [hfe2, hfr2]
  · rfl

theorem formatRecord_length (a : Alarm) (hh : a.hour < 100) (hm : a.minute < 100) :
    (formatRecord a).length = (c_str a.message).length + 10 := by
  have hf : ∀ b : Bool, (fmtFlag b).length = 1 := by intro b; cases b <;> rfl
  unfold formatRecord
  rw [fmt02d_lt _ hh, fmt02d_lt _ hm]
  simp only [List.length_append, List.length_cons, List.length_nil, hf]
  omega

theorem parseRecord_recordBlob (a : Alarm) (hh : a.hour < 100) (hm : a.minute < 100)
    (hlen : a.message.length ≤ 245) (hbar : 124 ∉ a.message) (hnul : 0 ∉ a.message) :
    parseRecord (recordBlob a) = .alarm a := by
  have htake : (formatRecord a).take 255 = formatRecord a := by
    apply List.take_of_length_le
    rw [formatRecord_length a hh hm]
    have : (c_str a.message).length ≤ a.message.length := by
      unfold c_str
      exact (List.takeWhile_sublist _).length_le
    omega
  unfold recordBlob
  rw [htake]
  exact parseRecord_formatRecord a hh hm hbar hnul

theorem saveLoop_blob_lt (l : List Alarm) (i : Nat) (nvs : Nvs) (j : Nat) (hj : j < i) :
    (saveLoop l i nvs).blob j = nvs.blob j := by
  induction l generalizing i nvs with
  | nil => rfl
  | cons a rest ih =>
    simp only [saveLoop]
    rw [ih (i + 1) _ (by omega)]
    simp only [Nvs.set_blob]
    rw [if_neg (by omega)]

theorem saveLoop_count (l : List Alarm) (i : Nat) (nvs : Nvs) :
    (saveLoop l i nvs).count = nvs.count := by
  induction l generalizing i nvs with
  | nil => rfl
  | cons a rest ih =>
    simp only [saveLoop]
    rw [ih]
    rfl

theorem recordBlob_length_pos (a : Alarm) : (recordBlob a).length > 0 := by
  unfold recordBlob
  simp

theorem load_saveLoop (l : List Alarm) (i : Nat) (nvs : Nvs) (acc : List Alarm)
    (h : ∀ a ∈ l, parseRecord (recordBlob a) = .alarm a) :
    (List.range' i l.length).foldlM (loadSlot (saveLoop l i nvs)) acc = some (acc ++ l) := by
  induction l generalizing i nvs acc with
  | nil => simp
  | cons a rest ih =>
    simp only [List.length_cons, List.range'_succ, List.foldlM_cons, saveLoop]
    have hslot : loadSlot (saveLoop rest (i + 1) (nvs.set_blob i (recordBlob a))) acc i =
        some (acc ++ [a]) := by
      unfold loadSlot
      rw [saveLoop_blob_lt rest (i + 1) _ i (by omega)]
      simp only [Nvs.set_blob, if_true]
      rw [if_pos (recordBlob_length_pos a), h a (List.mem_cons_self _ _)]
    rw [hslot]
    simp only [Option.bind_eq_bind, Option.some_bind]
    rw [ih (i + 1) _ _ (fun b hb => h b (List.mem_cons_of_mem _ hb))]
    simp

/-- C4 (as amended). Save/load round trip: for every alarm list of at most 10
alarms whose hours are in [0,23], minutes in [0,59] and whose messages are at
most 245 bytes long and contain neither the delimiter '|' nor a NUL byte, and
whatever the opened storage held before, `saveToNVS` followed by `loadFromNVS`
into an empty list is defined and yields the original list, entry by entry
and in order. -/
theorem save_load_roundtrip (s : State) (nvs : Nvs) (hopen : s.nvs_handle_ = some nvs)
    (hlen : s.alarms_.length ≤ 10) (hrange : InRange s.alarms_)
    (hmsg : ∀ a ∈ s.alarms_, a.message.length ≤ 245 ∧ 124 ∉ a.message ∧ 0 ∉ a.message) :
    (loadFromNVS { saveToNVS s with alarms_ := [] }).map (fun s1 => s1.alarms_) =
      some s.alarms_ := by
  have hrec : ∀ a ∈ s.alarms_, parseRecord (recordBlob a) = .alarm a := by
    intro a ha
    have hr := hrange a ha
    have hm := hmsg a ha
    exact parseRecord_recordBlob a (by omega) (by omega) hm.1 hm.2.1 hm.2.2
  unfold loadFromNVS saveToNVS
  simp only [hopen, Option.map_some']
  rw [saveLoop_count]
  simp only [Nvs.set_u8, Option.getD_some]
  rw [Nat.mod_eq_of_lt (by omega), Nat.min_eq_left hlen, List.range_eq_range',
    load_saveLoop _ _ _ _ hrec]
  rfl

theorem save_load_roundtrip_witness :
    (loadFromNVS { saveToNVS (mkState [alarmA, alarmC, alarmB]) with alarms_ := [] }).map
      (fun s1 => s1.alarms_) = some [alarmA, alarmC, alarmB] :=
  save_load_roundtrip (mkState [alarmA, alarmC, alarmB]) Nvs.empty rfl (by decide) (by decide)
    (by decide)

set_option maxRecDepth 100000

/-- C4 (as stated) fails. A message of 250 bytes without '|' makes the record
overflow `buffer[256]`: the stored record has no second delimiter and the
reload skips it. A message with an embedded NUL byte is cut at the NUL by
`%s`. In both cases the reloaded list differs from the saved one. -/
theorem save_load_roundtrip_counterexample :
    (124 ∉ alarmLong.message ∧ InRange [alarmLong] ∧
      (loadFromNVS { saveToNVS (mkState [alarmLong]) with alarms_ := [] }).map
        (fun s1 => s1.alarms_) = some []) ∧
    (124 ∉ alarmNul.message ∧ InRange [alarmNul] ∧
      (loadFromNVS { saveToNVS (mkState [alarmNul]) with alarms_ := [] }).map
        (fun s1 => s1.alarms_) = some [⟨7, 30, [97], true, true⟩]) := by
  decide


/-! ## Shape of the captures of the full-word pattern -/

theorem starRun_some (p : Nat → Bool) (inp : Str) (k : Str → Option Caps) (m : Caps)
    (h : starRun p inp k = some m) : ∃ rest, k rest = some m := by
  induction inp with
  | nil => exact ⟨[], h⟩
  | cons c cs ih =>
    unfold starRun at h
    split at h
    · split at h
      · rename_i r hr
        injection h with h
        subst h
        exact ih hr
      · exact ⟨_, h⟩
    · exact ⟨_, h⟩

theorem str_run_some (w : Str) (inp : Str) (caps : Caps) (k : Str → Caps → Option Caps)
    (m : Caps) (h : (Regex.str w).run inp caps k = some m) : ∃ rest, k rest caps = some m := by
  induction w generalizing inp with
  | nil => exact ⟨inp, h⟩
  | cons c cs ih =>
    simp only [Regex.str, Regex.run] at h
    cases inp with
    | nil => simp at h
    | cons x xs =>
      simp only at h
      split at h
      · exact ih xs h
      · cases h

theorem digits_run_some (inp : Str) (caps : Caps) (k : Str → Caps → Option Caps) (m : Caps)
    (h : (reDigit.rep 1 2).run inp caps k = some m) :
    ∃ cap rest, Digits12 cap ∧ inp = cap ++ rest ∧ k rest caps = some m := by
  simp only [Regex.rep, reDigit, Regex.run] at h
  cases inp with
  | nil => simp at h
  | cons x xs =>
    simp only at h
    split at h
    · rename_i hx
      split at h
      · rename_i r hr
        injection h with h
        subst h
        cases xs with
        | nil => simp at hr
        | cons y ys =>
          simp only at hr
          split at hr
          · rename_i hy
            exact ⟨[x, y], ys, Or.inr ⟨x, y, hx, hy, rfl⟩, rfl, hr⟩
          · cases hr
      · exact ⟨[x], xs, Or.inl ⟨x, hx, rfl⟩, rfl, h⟩
    · cases h

theorem group_digits_run_some (n : Nat) (inp : Str) (caps : Caps)
    (k : Str → Caps → Option Caps) (m : Caps)
    (h : (Regex.group n (reDigit.rep 1 2)).run inp caps k = some m) :
    ∃ cap rest, Digits12 cap ∧ k rest ((n, cap) :: caps) = some m := by
  have h1 : (reDigit.rep 1 2).run inp caps (fun rest caps1 =>
      k rest ((n, inp.take (inp.length - rest.length)) :: caps1)) = some m := h
  obtain ⟨cap, rest, hd, hinp, hk⟩ := digits_run_some inp caps _ m h1
  refine ⟨cap, rest, hd, ?_⟩
  have : inp.take (inp.length - rest.length) = cap := by
    rw [hinp, List.length_append, Nat.add_sub_cancel, List.take_left']
    rfl
  simp only [this] at hk
  exact hk

theorem seq_run (a b : Regex) (inp : Str) (caps : Caps) (k : Str → Caps → Option Caps) :
    (Regex.seq a b).run inp caps k = a.run inp caps (fun inp1 caps1 => b.run inp1 caps1 k) := by
  rw [Regex.run]

theorem group_run (n : Nat) (a : Regex) (inp : Str) (caps : Caps)
    (k : Str → Caps → Option Caps) :
    (Regex.group n a).run inp caps k =
      a.run inp caps (fun rest caps1 =>
        k rest ((n, inp.take (inp.length - rest.length)) :: caps1)) := by
  rw [Regex.run]

theorem alt_run_some (a b : Regex) (inp : Str) (caps : Caps)
    (k : Str → Caps → Option Caps) (m : Caps) (h : (Regex.alt a b).run inp caps k = some m) :
    a.run inp caps k = some m ∨ b.run inp caps k = some m := by
  rw [Regex.run] at h
  split at h
  · rename_i r hr
    left; rw [hr, h]
  · right; exact h

theorem opt_run_some (a : Regex) (inp : Str) (caps : Caps)
    (k : Str → Caps → Option Caps) (m : Caps) (h : (Regex.opt a).run inp caps k = some m) :
    a.run inp caps k = some m ∨ k inp caps = some m := by
  rw [Regex.run] at h
  split at h
  · rename_i r hr
    left; rw [hr, h]
  · right; exact h

theorem star_run_some (p : Nat → Bool) (inp : Str) (caps : Caps)
    (k : Str → Caps → Option Caps) (m : Caps) (h : (Regex.star p).run inp caps k = some m) :
    ∃ rest, k rest caps = some m :=
  starRun_some p inp (fun rest => k rest caps) m h

theorem pattern_full_run_caps (inp : Str) (m : Caps)
    (h : pattern_full.run inp [] (fun _ caps => some caps) = some m) :
    ∃ cap1 cap2, Digits12 cap1 ∧
      (m = [(2, cap2), (1, cap1)] ∨
        ∃ cap3, Digits12 cap3 ∧ m = [(3, cap3), (2, cap2), (1, cap1)]) := by
  unfold pattern_full at h
  rw [seq_run] at h
  obtain ⟨cap1, r1, hd1, h1⟩ := group_digits_run_some 1 inp [] _ m h
  rw [seq_run] at h1
  obtain ⟨r2, h2⟩ := star_run_some _ _ _ _ _ h1
  rw [seq_run, group_run] at h2
  have h3 : ∃ r3 cap2, (Regex.seq (Regex.star isspace)
      (Regex.opt (Regex.group 3 (reDigit.rep 1 2)))).run r3 [(2, cap2), (1, cap1)]
        (fun _ caps => some caps) = some m := by
    rcases alt_run_some _ _ _ _ _ _ h2 with h3 | h3
    · obtain ⟨r3, hr3⟩ := str_run_some _ _ _ _ _ h3
      exact ⟨r3, _, hr3⟩
    · rcases alt_run_some _ _ _ _ _ _ h3 with h4 | h4
      · obtain ⟨r3, hr3⟩ := str_run_some _ _ _ _ _ h4
        exact ⟨r3, _, hr3⟩
      · obtain ⟨r3, hr3⟩ := str_run_some _ _ _ _ _ h4
        exact ⟨r3, _, hr3⟩
  obtain ⟨r3, cap2, h4⟩ := h3
  rw [seq_run] at h4
  obtain ⟨r4, h5⟩ := star_run_some _ _ _ _ _ h4
  refine ⟨cap1, cap2, hd1, ?_⟩
  rcases opt_run_some _ _ _ _ _ h5 with h6 | h6
  · obtain ⟨cap3, r5, hd3, h7⟩ := group_digits_run_some 3 r4 _ _ _ h6
    injection h7 with h7
    exact Or.inr ⟨cap3, hd3, h7.symm⟩
  · injection h6 with h6
    exact Or.inl h6.symm

theorem pattern_full_search_caps (text : Str) (m : Caps)
    (h : regex_search pattern_full text = some m) :
    ∃ cap1 cap2, Digits12 cap1 ∧
      (m = [(2, cap2), (1, cap1)] ∨
        ∃ cap3, Digits12 cap3 ∧ m = [(3, cap3), (2, cap2), (1, cap1)]) := by
  induction text with
  | nil => exact pattern_full_run_caps [] m h
  | cons c cs ih =>
    unfold regex_search at h
    split at h
    · rename_i caps hc
      injection h with h
      subst h
      exact pattern_full_run_caps _ _ hc
    · exact ih h

theorem stoi_digits12 (cap : Str) (h : Digits12 cap) : stoi cap < 100 := by
  rcases h with ⟨d, hd, rfl⟩ | ⟨d, e, hd, he, rfl⟩
  · have : 48 ≤ d ∧ d ≤ 57 := by simpa [isdigit] using hd
    simp [stoi]; omega
  · have : 48 ≤ d ∧ d ≤ 57 := by simpa [isdigit] using hd
    have : 48 ≤ e ∧ e ≤ 57 := by simpa [isdigit] using he
    simp [stoi]; omega

/-- In a match of the full-word pattern the captured hour and, when present,
the captured minute are numbers below 100. -/
theorem pattern_full_bounds (text : Str) (m : Caps)
    (h : regex_search pattern_full text = some m) :
    stoi (capture m 1) < 100 ∧ (matched m 3 = true → stoi (capture m 3) < 100) := by
  obtain ⟨cap1, cap2, hd1, hm | ⟨cap3, hd3, hm⟩⟩ := pattern_full_search_caps text m h
  · subst hm
    refine ⟨?_, ?_⟩
    · have : capture [(2, cap2), (1, cap1)] 1 = cap1 := by simp [capture, List.lookup]
      rw [this]; exact stoi_digits12 _ hd1
    · intro hm3
      simp [matched, List.lookup] at hm3
  · subst hm
    refine ⟨?_, ?_⟩
    · have : capture [(3, cap3), (2, cap2), (1, cap1)] 1 = cap1 := by
        simp [capture, List.lookup]
      rw [this]; exact stoi_digits12 _ hd1
    · intro _
      have : capture [(3, cap3), (2, cap2), (1, cap1)] 3 = cap3 := by
        simp [capture, List.lookup]
      rw [this]; exact stoi_digits12 _ hd3

/-! ## Claims on `parseTime` -/

theorem parseTime_full (text : Str) (m : Caps)
    (hc : regex_search pattern_compact text = none)
    (hf : regex_search pattern_full text = some m) :
    parseTime text =
      some (if hasAfternoonMarker text then
              (if stoi (capture m 1) < 12 then stoi (capture m 1) + 12 else stoi (capture m 1))
            else if hasMorningMarker text then
              (if stoi (capture m 1) = 12 then 0 else stoi (capture m 1))
            else stoi (capture m 1),
            if matched m 3 then stoi (capture m 3) else 0) := by
  obtain ⟨hb1, hb3⟩ := pattern_full_bounds text m hf
  have h1 : stoi (capture m 1) % 256 = stoi (capture m 1) := Nat.mod_eq_of_lt (by omega)
  unfold parseTime
  rw [hc, hf]
  simp only [h1]
  congr 2
  · split
    · split
      · exact Nat.mod_eq_of_lt (by omega)
      · rfl
    · simp only [beq_iff_eq]
  · split
    · rename_i h3
      exact Nat.mod_eq_of_lt (by have := hb3 h3; omega)
    · rfl

/-- C8 fails on the code. On "nhac toi 12 gio sang" the compact pattern does not
match, the full-word pattern captures hour 12 and the text contains the
morning marker "sang", yet `parseTime` returns (12, 0) and not (0, 0): the
substring "toi" of "nhac toi" (remind me) is taken for the evening marker, and
the morning rule sits in the else-branch of that test. The same request
written with diacritics gives (0, 0), and "nhac toi 9 gio sang" gives 21:00. -/
theorem morning_twelve_collision :
    regex_search pattern_compact (bytes "nhac toi 12 gio sang") = none ∧
    (regex_search pattern_full (bytes "nhac toi 12 gio sang")).map
      (fun m => stoi (capture m 1)) = some 12 ∧
    hasMorningMarker (bytes "nhac toi 12 gio sang") = true ∧
    hasAfternoonMarker (bytes "nhac toi 12 gio sang") = true ∧
    contains (bytes "nhac toi 12 gio sang") "toi" = true ∧
    parseTime (bytes "nhac toi 12 gio sang") = some (12, 0) ∧
    parseTime (bytes "nhắc tôi 12 giờ sáng") = some (0, 0) ∧
    parseTime (bytes "nhac 12 gio sang") = some (0, 0) ∧
    parseTime (bytes "nhac toi 9 gio sang") = some (21, 0) := by
  decide

/-- Where no afternoon/evening marker occurs, the morning rule applies: for every text
that the compact pattern does not match, on which the full-word pattern
matches with captured hour 12, and which contains a morning marker and none of
the afternoon/evening markers, `parseTime` returns hour 0 with the captured
minute (0 when no minute is captured). -/
theorem morning_twelve (text : Str) (m : Caps)
    (hc : regex_search pattern_compact text = none)
    (hf : regex_search pattern_full text = some m)
    (h12 : stoi (capture m 1) = 12)
    (hmorning : hasMorningMarker text = true)
    (hafternoon : hasAfternoonMarker text = false) :
    parseTime text = some (0, if matched m 3 then stoi (capture m 3) else 0) := by
  rw [parseTime_full text m hc hf, hafternoon, hmorning, h12]
  simp

/-- C9 fails on the code. On "bao thuc 06:15 hang ngay" the full-word pattern,
tried before the colon pattern, matches "15 h" (the digits of the minute, a
space, and the first letter of "hang"); `parseTime` returns (15, 0) and
`parseResponse` on an empty list appends a repeating alarm at 15:00, although
the colon pattern alone would give (6, 15), as it does for the same request
with "moi ngay". With minute 45 the same request is parsed as (45, 0) and
rejected by the range check. -/
theorem colon_daily_request :
    regex_search pattern_compact (bytes "bao thuc 06:15 hang ngay") = none ∧
    regex_search pattern_full (bytes "bao thuc 06:15 hang ngay") =
      some [(2, bytes "h"), (1, bytes "15")] ∧
    (regex_search pattern_time (bytes "bao thuc 06:15 hang ngay")).map
      (fun m => (stoi (capture m 1), stoi (capture m 2))) = some (6, 15) ∧
    parseTime (bytes "bao thuc 06:15 hang ngay") = some (15, 0) ∧
    (parseResponse (bytes "bao thuc 06:15 hang ngay") (mkState [])).alarms_ =
      [⟨15, 0, bytes "bao thuc 06:15 hang ngay", true, true⟩] ∧
    parseTime (bytes "bao thuc 06:15 moi ngay") = some (6, 15) ∧
    parseTime (bytes "bao thuc 07:45 hang ngay") = some (45, 0) ∧
    (parseResponse (bytes "bao thuc 07:45 hang ngay") (mkState [])).alarms_ = [] := by
  decide

/-- C10. On "dat bao thuc 9 gio chieu" `parseTime` returns (21, 0). In general, for
every text that the compact pattern does not match, that the full-word pattern
matches with captured hour `h`, and that contains an afternoon/evening marker
("chieu", "chiều", "toi" or "tối") anywhere, `parseTime` returns hour `h + 12`
when `h < 12` and `h` unchanged when `h ≥ 12`, with the captured minute (0
when no minute is captured). -/
theorem afternoon_shift (text : Str) (m : Caps)
    (hc : regex_search pattern_compact text = none)
    (hf : regex_search pattern_full text = some m)
    (hmark : hasAfternoonMarker text = true) :
    parseTime text =
      some (if stoi (capture m 1) < 12 then stoi (capture m 1) + 12 else stoi (capture m 1),
        if matched m 3 then stoi (capture m 3) else 0) := by
  rw [parseTime_full text m hc hf, hmark]
  simp

theorem afternoon_shift_witness :
    parseTime (bytes "dat bao thuc 9 gio chieu") = some (21, 0) ∧
    parseTime (bytes "nhắc 15 giờ 40 chiều") = some (15, 40) :=
  ⟨afternoon_shift (bytes "dat bao thuc 9 gio chieu") [(2, bytes "gio"), (1, bytes "9")]
      (by decide) (by decide) (by decide),
    afternoon_shift (bytes "nhắc 15 giờ 40 chiều")
      [(3, bytes "40"), (2, bytes "giờ"), (1, bytes "15")]
      (by decide) (by decide) (by decide)⟩

/-! ## Claims on `parseResponse` and the firing condition -/

theorem alarmMessage_length (text : Str) : (alarmMessage text).length ≤ 53 := by
  unfold alarmMessage
  split
  · rw [List.length_append, List.length_take]
    have : (bytes "...").length = 3 := by decide
    omega
  · omega

/-- C11. Accepted creation: when `parseResponse` passes the intent tests (no
delete-all marker, no list marker, an alarm or reminder marker), `parseTime`
gives (hour, minute) in range and no enabled alarm is at that time, the list
after the call is the previous list with one alarm appended: at (hour,
minute), enabled, repeating exactly when the text contains "hang ngay", "hàng
ngày", "moi ngay" or "mỗi ngày", with message the text itself when the text
has at most 50 bytes and else its first 50 bytes followed by "..."; the
message never has more than 53 bytes. -/
theorem accepted_creation (text : Str) (s : State) (hour minute : Nat)
    (hdel : isDeleteRequest text = false) (hlist : isListRequest text = false)
    (hintent : is_alarm text = true ∨ is_reminder text = true)
    (htime : parseTime text = some (hour, minute))
    (hrange : hour ≤ 23 ∧ minute ≤ 59)
    (hdup : isDuplicateAlarm s hour minute = false) :
    (parseResponse text s).alarms_ = s.alarms_ ++
      [{ hour := hour, minute := minute,
         message := if text.length ≤ 50 then text else text.take 50 ++ bytes "...",
         enabled := true,
         repeated := contains text "hang ngay" || contains text "hàng ngày" ||
           contains text "moi ngay" || contains text "mỗi ngày" }] ∧
    (if text.length ≤ 50 then text else text.take 50 ++ bytes "...").length ≤ 53 ∧
    (parseResponse text s).save_calls = s.save_calls + 1 := by
  have hmsg : alarmMessage text =
      if text.length ≤ 50 then text else text.take 50 ++ bytes "..." := by
    unfold alarmMessage
    by_cases h : text.length ≤ 50
    · rw [if_neg (by omega), if_pos h]
    · rw [if_pos (by omega), if_neg h]
  have hint : (!is_alarm text && !is_reminder text) = false := by
    rcases hintent with h | h <;> simp [h]
  have hr : (decide (hour > 23) || decide (minute > 59)) = false := by
    simp only [Bool.or_eq_false_iff, decide_eq_false_iff_not]
    omega
  have hp : parseResponse text s = saveToNVS { s with alarms_ := s.alarms_ ++
      [{ hour := hour, minute := minute, message := alarmMessage text, enabled := true,
         repeated := isDaily text }] } := by
    unfold parseResponse
    simp only [hdel, hlist, hint, htime, hr, hdup, Bool.false_eq_true, if_false]
  refine ⟨?_, ?_, ?_⟩
  · rw [hp, saveToNVS_alarms, hmsg]
    rfl
  · rw [← hmsg]; exact alarmMessage_length text
  · rw [hp]; rfl

theorem accepted_creation_witness :
    (parseResponse (bytes "bao thuc 7h30") (mkState [])).alarms_ =
      [⟨7, 30, bytes "bao thuc 7h30", true, false⟩] ∧
    (parseResponse (bytes "nhắc tôi uống thuốc lúc 21h15 mỗi ngày sau bữa tối nhé")
      (mkState [alarmA])).alarms_ =
      [alarmA, ⟨21, 15, (bytes "nhắc tôi uống thuốc lúc 21h15 mỗi ngày sau bữa tối nhé").take 50 ++
        bytes "...", true, true⟩] :=
  ⟨(accepted_creation (bytes "bao thuc 7h30") (mkState []) 7 30 (by decide) (by decide)
      (Or.inl (by decide)) (by decide) (by decide) (by decide)).1.trans (by decide),
    (accepted_creation (bytes "nhắc tôi uống thuốc lúc 21h15 mỗi ngày sau bữa tối nhé")
      (mkState [alarmA]) 21 15 (by decide) (by decide)
      (Or.inr (by decide)) (by decide) (by decide) (by decide)).1.trans (by decide)⟩

/-- C12. Delete-all wins: for every prior state and every text that contains
"xoa bao thuc", "xóa báo thức", "xoa tat ca" or "huy bao", whatever else it
contains, the alarm list after `parseResponse` is empty. -/
theorem delete_all_wins (text : Str) (s : State)
    (h : contains text "xoa bao thuc" = true ∨ contains text "xóa báo thức" = true ∨
      contains text "xoa tat ca" = true ∨ contains text "huy bao" = true) :
    (parseResponse text s).alarms_ = [] ∧ (parseResponse text s).alarms_.length = 0 := by
  have hd : isDeleteRequest text = true := by
    unfold isDeleteRequest
    rcases h with h | h | h | h <;> simp [h]
  have : (parseResponse text s).alarms_ = [] := by
    unfold parseResponse
    rw [if_pos hd]
    rfl
  exact ⟨this, by rw [this]; rfl⟩

theorem delete_all_wins_witness :
    (parseResponse (bytes "xoa bao thuc") (mkState [alarmA, alarmD])).alarms_ = [] ∧
    (parseResponse (bytes "xem danh sach roi huy bao thuc 7h30")
      (mkState [alarmA, alarmD])).alarms_ = [] :=
  ⟨(delete_all_wins (bytes "xoa bao thuc") (mkState [alarmA, alarmD])
      (Or.inl (by decide))).1,
    (delete_all_wins (bytes "xem danh sach roi huy bao thuc 7h30") (mkState [alarmA, alarmD])
      (Or.inr (Or.inr (Or.inr (by decide))))).1⟩

/-- C13. List requests do not mutate: for every state and every text that contains
no delete-all marker and contains "kiem tra", "kiểm tra", "xem", "danh sach",
"danh sách", "co bao nhieu" or "có bao nhiêu", `parseResponse` returns the
state as it was (same alarm list, no `saveToNVS` call), also when the text
contains an alarm marker and a time. -/
theorem list_request_no_mutation (text : Str) (s : State)
    (hdel : contains text "xoa bao thuc" = false ∧ contains text "xóa báo thức" = false ∧
      contains text "xoa tat ca" = false ∧ contains text "huy bao" = false)
    (hlist : contains text "kiem tra" = true ∨ contains text "kiểm tra" = true ∨
      contains text "xem" = true ∨ contains text "danh sach" = true ∨
      contains text "danh sách" = true ∨ contains text "co bao nhieu" = true ∨
      contains text "có bao nhiêu" = true) :
    parseResponse text s = s ∧
    (parseResponse text s).alarms_ = s.alarms_ ∧
    (parseResponse text s).save_calls = s.save_calls := by
  have hd : isDeleteRequest text = false := by
    unfold isDeleteRequest
    simp [hdel.1, hdel.2.1, hdel.2.2.1, hdel.2.2.2]
  have hl : isListRequest text = true := by
    unfold isListRequest
    rcases hlist with h | h | h | h | h | h | h <;> simp [h]
  have : parseResponse text s = s := by
    unfold parseResponse
    rw [if_neg (by simp [hd]), if_pos hl]
  exact ⟨this, by rw [this], by rw [this]⟩

theorem list_request_no_mutation_witness :
    parseResponse (bytes "kiem tra bao thuc") (mkState [alarmA, alarmD]) =
      mkState [alarmA, alarmD] ∧
    parseResponse (bytes "xem bao thuc 7h30") (mkState [alarmD]) = mkState [alarmD] :=
  ⟨(list_request_no_mutation (bytes "kiem tra bao thuc") (mkState [alarmA, alarmD])
      (by decide) (Or.inl (by decide))).1,
    (list_request_no_mutation (bytes "xem bao thuc 7h30") (mkState [alarmD])
      (by decide) (Or.inr (Or.inr (Or.inl (by decide))))).1⟩

theorem map_tick_of_no_fire (ti : Tm) (l : List Alarm) (h : l.filter (fires ti) = []) :
    l.map (tick ti) = l := by
  conv_rhs => rw [← List.map_id l]
  apply List.map_congr_left
  intro a ha
  have hf : fires ti a = false := by
    rw [List.filter_eq_nil_iff] at h
    simpa using h a ha
  unfold tick
  unfold fires at hf
  simp [hf]

/-- C20. Firing condition: in a `checkAlarms` call at a clock value different from
the last processed one, with local time H:M:S, the alarms handed to
`triggerAlarm` are, in list order and each once, the alarms that were enabled
at the start of the call with (hour, minute) = (H, M) when S = 0, and none
when S ≠ 0; when no alarm fires, the call only records the clock value: the
alarm list is unchanged and `saveToNVS` is not called. -/
theorem firing_condition (localtime_r : Int → Tm) (now : Int) (s : State)
    (hnew : now ≠ s.last_check_time_) :
    (checkAlarms localtime_r now s).triggered = s.triggered ++
      (if (localtime_r now).tm_sec = 0 then
        enabledAt s.alarms_ (localtime_r now).tm_hour (localtime_r now).tm_min
      else []) ∧
    ((if (localtime_r now).tm_sec = 0 then
        enabledAt s.alarms_ (localtime_r now).tm_hour (localtime_r now).tm_min
      else []) = [] →
      checkAlarms localtime_r now s = { s with last_check_time_ := now } ∧
      (checkAlarms localtime_r now s).alarms_ = s.alarms_ ∧
      (checkAlarms localtime_r now s).save_calls = s.save_calls) := by
  have hfilter : s.alarms_.filter (fires (localtime_r now)) =
      (if (localtime_r now).tm_sec = 0 then
        enabledAt s.alarms_ (localtime_r now).tm_hour (localtime_r now).tm_min
      else []) := by
    by_cases hs : (localtime_r now).tm_sec = 0
    · rw [if_pos hs]
      unfold enabledAt
      apply List.filter_congr
      intro a _
      simp [fires, isDue, hs, Bool.and_assoc]
    · rw [if_neg hs, List.filter_eq_nil_iff]
      intro a _
      simp [fires, isDue, hs]
  refine ⟨?_, ?_⟩
  · rw [checkAlarms_triggered, if_neg hnew, hfilter]
  · intro hnone
    rw [← hfilter] at hnone
    have hstate : checkAlarms localtime_r now s = { s with last_check_time_ := now } := by
      unfold checkAlarms
      rw [if_neg hnew]
      have h1 := checkLoop_fst (localtime_r now) s.alarms_
      have h2 := checkLoop_snd (localtime_r now) s.alarms_
      rw [map_tick_of_no_fire _ _ hnone] at h1
      rw [hnone] at h2
      simp only [h1, h2, ne_eq, not_true_eq_false, if_false, List.append_nil]
    exact ⟨hstate, by rw [hstate], by rw [hstate]⟩

theorem firing_condition_witness :
    (checkAlarms utc 27000 (mkState [alarmA, alarmD, alarmC, alarmB])).triggered =
      [alarmA, alarmB] ∧
    (checkAlarms utc 27001 (mkState [alarmA, alarmD, alarmC, alarmB])).triggered = [] ∧
    (checkAlarms utc 27001 (mkState [alarmA, alarmD, alarmC, alarmB])).alarms_ =
      [alarmA, alarmD, alarmC, alarmB] :=
  ⟨(firing_condition utc 27000 (mkState [alarmA, alarmD, alarmC, alarmB]) (by decide)).1.trans
      (by decide),
    (firing_condition utc 27001 (mkState [alarmA, alarmD, alarmC, alarmB]) (by decide)).1.trans
      (by decide),
    ((firing_condition utc 27001 (mkState [alarmA, alarmD, alarmC, alarmB]) (by decide)).2
      (by decide)).2.1⟩

/-! ## Claims on loading and on the size of the alarm list -/

theorem parseRecord_undefined_iff (buffer : Str) :
    parseRecord buffer = .undefined ↔ ¬ ReadsInBounds buffer := by
  unfold parseRecord ReadsInBounds
  by_cases h0 : 0 ∈ buffer
  · rw [if_neg (by simp [h0])]
    cases hsc : sscanfTime buffer with
    | none => simp [h0]
    | some hm =>
      obtain ⟨hour, minute⟩ := hm
      simp only
      cases h1 : strchr buffer 124 with
      | none => simp [h0]
      | some p1 =>
        simp only
        cases h2 : strchr (buffer.drop (p1 + 1)) 124 with
        | none => simp [h0, h2]
        | some len =>
          simp only
          by_cases hin : p1 + 1 + len + 3 < buffer.length
          · rw [if_pos hin]
            simp only [reduceCtorEq, false_iff, not_not]
            refine ⟨h0, ?_⟩
            intro q1 l _ hq hl
            injection hq with hq
            subst hq
            rw [h2] at hl
            injection hl with hl
            subst hl
            exact hin
          · rw [if_neg hin]
            simp only [true_iff]
            intro hb
            exact hin (hb.2 p1 len (by simp) rfl h2)
  · rw [if_pos h0]
    simp [h0]

theorem loadSlot_some (nvs : Nvs) (acc res : List Alarm) (i : Nat)
    (h : loadSlot nvs acc i = some res) : res = acc ++ (slotAlarm nvs i).toList := by
  unfold loadSlot at h
  unfold slotAlarm
  cases hb : nvs.blob i with
  | none =>
    rw [hb] at h
    simp only [Option.some.injEq] at h
    simp [h]
  | some buffer =>
    rw [hb] at h
    simp only at h ⊢
    by_cases hlen : buffer.length > 0
    · rw [if_pos hlen] at h
      rw [if_pos hlen]
      cases hp : parseRecord buffer with
      | undefined => rw [hp] at h; cases h
      | skipped =>
        rw [hp] at h
        simp only [Option.some.injEq] at h
        simp [h]
      | alarm a =>
        rw [hp] at h
        simp only [Option.some.injEq] at h
        simp [h]
    · rw [if_neg hlen] at h
      rw [if_neg hlen]
      simp only [Option.some.injEq] at h
      simp [h]

theorem loadSlot_defined (nvs : Nvs) (acc : List Alarm) (i : Nat)
    (hdef : ∀ buffer, nvs.blob i = some buffer → buffer ≠ [] → ReadsInBounds buffer) :
    loadSlot nvs acc i = some (acc ++ (slotAlarm nvs i).toList) := by
  cases h : loadSlot nvs acc i with
  | some res => rw [loadSlot_some nvs acc res i h]
  | none =>
    exfalso
    unfold loadSlot at h
    cases hb : nvs.blob i with
    | none => rw [hb] at h; cases h
    | some buffer =>
      rw [hb] at h
      simp only at h
      by_cases hlen : buffer.length > 0
      · rw [if_pos hlen] at h
        have hne : buffer ≠ [] := by
          intro he; rw [he] at hlen; simp at hlen
        have hin := hdef buffer hb hne
        cases hp : parseRecord buffer with
        | undefined => exact ((parseRecord_undefined_iff buffer).mp hp) hin
        | skipped => rw [hp] at h; cases h
        | alarm a => rw [hp] at h; cases h
      · rw [if_neg hlen] at h; cases h

theorem foldlM_loadSlot_some (nvs : Nvs) (is : List Nat) (acc res : List Alarm)
    (h : is.foldlM (loadSlot nvs) acc = some res) :
    res = acc ++ is.filterMap (slotAlarm nvs) := by
  induction is generalizing acc with
  | nil =>
    simp only [List.foldlM_nil, Option.pure_def, Option.some.injEq] at h
    simp [h]
  | cons i rest ih =>
    rw [List.foldlM_cons] at h
    cases h1 : loadSlot nvs acc i with
    | none => rw [h1] at h; cases h
    | some mid =>
      rw [h1] at h
      simp only [Option.bind_eq_bind, Option.some_bind] at h
      rw [ih mid h, loadSlot_some nvs acc mid i h1, List.filterMap_cons]
      cases slotAlarm nvs i <;> simp

theorem foldlM_loadSlot_defined (nvs : Nvs) (is : List Nat) (acc : List Alarm)
    (hdef : ∀ i ∈ is, ∀ buffer, nvs.blob i = some buffer → buffer ≠ [] →
      ReadsInBounds buffer) :
    is.foldlM (loadSlot nvs) acc = some (acc ++ is.filterMap (slotAlarm nvs)) := by
  induction is generalizing acc with
  | nil => simp
  | cons i rest ih =>
    rw [List.foldlM_cons, loadSlot_defined nvs acc i (hdef i (List.mem_cons_self _ _))]
    simp only [Option.bind_eq_bind, Option.some_bind]
    rw [ih _ (fun j hj => hdef j (List.mem_cons_of_mem _ hj)), List.filterMap_cons]
    cases slotAlarm nvs i <;> simp

theorem loadFromNVS_some (s s1 : State) (nvs : Nvs) (hopen : s.nvs_handle_ = some nvs)
    (h : loadFromNVS s = some s1) :
    s1.alarms_ =
      s.alarms_ ++ (List.range (min (nvs.count.getD 0) 10)).filterMap (slotAlarm nvs) := by
  unfold loadFromNVS at h
  simp only [hopen] at h
  cases hf : (List.range (min (nvs.count.getD 0) 10)).foldlM (loadSlot nvs) s.alarms_ with
  | none => rw [hf] at h; cases h
  | some res =>
    rw [hf] at h
    simp only [Option.map_some', Option.some.injEq] at h
    rw [← h]
    exact foldlM_loadSlot_some nvs _ _ _ hf

theorem loadFromNVS_defined (s : State) (nvs : Nvs) (hopen : s.nvs_handle_ = some nvs)
    (hbounds : StorageInBounds nvs) :
    (loadFromNVS s).map (fun s1 => s1.alarms_) =
      some (s.alarms_ ++ (List.range (min (nvs.count.getD 0) 10)).filterMap (slotAlarm nvs)) := by
  unfold loadFromNVS
  simp only [hopen]
  rw [foldlM_loadSlot_defined nvs _ _
    (fun i hi => hbounds i (List.mem_range.mp hi))]
  rfl

theorem structured_inBounds (buffer : Str) (a : Alarm) (h : Structured buffer a) :
    ReadsInBounds buffer ∧ parseRecord buffer = .alarm a := by
  obtain ⟨hh, hm, hbar, hnul, hbuf⟩ := h
  have hp : parseRecord buffer = .alarm a := by
    rw [hbuf]; exact parseRecord_formatRecord a hh hm hbar hnul
  refine ⟨?_, hp⟩
  by_contra hn
  rw [(parseRecord_undefined_iff buffer).mpr hn] at hp
  cases hp

/-- C16 (as stated) fails: the records "12:30xyz|msg|1|0" and "07:30||2|1" do
not have the structure `hour:minute|message|flag|flag` (bytes between the
minute and the delimiter, a flag that is neither "0" nor "1"), are read inside
their blobs, and are loaded, not skipped. -/
theorem load_skips_malformed_counterexample :
    (¬ ∃ a, Structured (bytes "12:30xyz|msg|1|0" ++ [0]) a) ∧
    (¬ ∃ a, Structured (bytes "07:30||2|1" ++ [0]) a) ∧
    (loadFromNVS { fresh with nvs_handle_ := some nvsLoose }).map (fun s1 => s1.alarms_) =
      some [⟨12, 30, bytes "msg", true, false⟩, ⟨7, 30, [], false, true⟩] := by
  refine ⟨?_, ?_, by decide⟩
  · rintro ⟨a, hs⟩
    have hp := (structured_inBounds _ a hs).2
    have h2 : parseRecord (bytes "12:30xyz|msg|1|0" ++ [0]) =
        .alarm ⟨12, 30, bytes "msg", true, false⟩ := by decide
    rw [h2] at hp
    injection hp with hp
    subst hp
    have hb := hs.2.2.2.2
    revert hb
    decide
  · rintro ⟨a, hs⟩
    have hp := (structured_inBounds _ a hs).2
    have h2 : parseRecord (bytes "07:30||2|1" ++ [0]) =
        .alarm ⟨7, 30, [], false, true⟩ := by decide
    rw [h2] at hp
    injection hp with hp
    subst hp
    have hb := hs.2.2.2.2
    revert hb
    decide

/-- C16 (as amended). For every content of the opened storage whose examined
records are read inside their blobs, `loadFromNVS` is defined and appends to
the list, in slot order, the alarms of the slots 0 .. min(count, 10) - 1
(count = 0 when unset) whose record is pushed, each slot being decided on its
own record alone, so that a record that is not pushed does not affect the
slots after it. A record with the structure `hour:minute|message|flag|flag`
is read inside its blob and yields its alarm. An absent or empty blob is
skipped, and a record read inside its blob is skipped exactly when it does
not start with `number:number` or holds fewer than two delimiters. -/
theorem load_skips_malformed (s : State) (nvs : Nvs) (hopen : s.nvs_handle_ = some nvs)
    (hbounds : StorageInBounds nvs) :
    (loadFromNVS s).map (fun s1 => s1.alarms_) =
      some (s.alarms_ ++ (List.range (min (nvs.count.getD 0) 10)).filterMap (slotAlarm nvs)) ∧
    (∀ i buffer a, nvs.blob i = some buffer → Structured buffer a →
      ReadsInBounds buffer ∧ slotAlarm nvs i = some a) ∧
    (∀ i, (nvs.blob i = none ∨ nvs.blob i = some []) → slotAlarm nvs i = none) ∧
    (∀ i buffer, nvs.blob i = some buffer → ReadsInBounds buffer →
      (slotAlarm nvs i = none ↔
        (sscanfTime buffer = none ∨ strchr buffer 124 = none ∨
          ∃ p1, strchr buffer 124 = some p1 ∧
            strchr (buffer.drop (p1 + 1)) 124 = none))) := by
  refine ⟨loadFromNVS_defined s nvs hopen hbounds, ?_, ?_, ?_⟩
  · intro i buffer a hb hs
    obtain ⟨hin, hp⟩ := structured_inBounds buffer a hs
    refine ⟨hin, ?_⟩
    have hlen : buffer.length > 0 := by
      rw [hs.2.2.2.2]; simp
    unfold slotAlarm
    rw [hb]
    simp only
    rw [if_pos hlen, hp]
  · intro i hb
    unfold slotAlarm
    rcases hb with hb | hb
    · rw [hb]
    · rw [hb]; rfl
  · intro i buffer hb hin
    have hne : buffer.length > 0 := by
      cases buffer with
      | nil => exact absurd hin.1 (by simp)
      | cons x xs => simp
    have hund : parseRecord buffer ≠ .undefined :=
      fun h => ((parseRecord_undefined_iff buffer).mp h) hin
    unfold slotAlarm
    rw [hb]
    simp only
    rw [if_pos hne]
    unfold parseRecord at hund ⊢
    rw [if_neg (by simp [hin.1])] at hund ⊢
    cases hsc : sscanfTime buffer with
    | none => simp
    | some hm =>
      obtain ⟨hour, minute⟩ := hm
      rw [hsc] at hund
      simp only at hund ⊢
      cases h1 : strchr buffer 124 with
      | none => simp
      | some p1 =>
        rw [h1] at hund
        simp only at hund ⊢
        cases h2 : strchr (buffer.drop (p1 + 1)) 124 with
        | none => simp [h2]
        | some len =>
          rw [h2] at hund
          simp only at hund ⊢
          by_cases hlt : p1 + 1 + len + 3 < buffer.length
          · rw [if_pos hlt]
            simp [h2]
          · rw [if_neg hlt] at hund
            exact absurd rfl hund

theorem nvsPartlyCorrupt_inBounds : StorageInBounds nvsPartlyCorrupt := by
  intro i hi buffer hb _
  have hi4 : i < 4 := by
    have : min (nvsPartlyCorrupt.count.getD 0) 10 = 4 := by decide
    omega
  by_contra hn
  have hu := (parseRecord_undefined_iff buffer).mpr hn
  interval_cases i
  · have : buffer = recordBlob alarmA := by
      simp [nvsPartlyCorrupt] at hb; exact hb.symm
    subst this
    revert hu; decide
  · have : buffer = bytes "hong" ++ [0] := by
      simp [nvsPartlyCorrupt] at hb; exact hb.symm
    subst this
    revert hu; decide
  · simp [nvsPartlyCorrupt] at hb
  · have : buffer = recordBlob alarmB := by
      simp [nvsPartlyCorrupt] at hb; exact hb.symm
    subst this
    revert hu; decide

theorem load_skips_malformed_witness :
    (loadFromNVS { fresh with nvs_handle_ := some nvsPartlyCorrupt }).map
      (fun s1 => s1.alarms_) = some [alarmA, alarmB] :=
  (load_skips_malformed { fresh with nvs_handle_ := some nvsPartlyCorrupt } nvsPartlyCorrupt
    rfl nvsPartlyCorrupt_inBounds).1.trans (by decide)

theorem length_filterMap_slot (nvs : Nvs) (is : List Nat) :
    (is.filterMap (slotAlarm nvs)).length ≤ is.length :=
  List.length_filterMap_le _ _

theorem cleanup_length_le (s : State) :
    (cleanupExpiredAlarms s).alarms_.length ≤ s.alarms_.length := by
  rw [cleanup_alarms]; exact List.length_filter_le _ _

theorem loadFromNVS_length (s s1 : State) (h : loadFromNVS s = some s1) :
    s1.alarms_.length ≤ s.alarms_.length + 10 := by
  cases hopen : s.nvs_handle_ with
  | none =>
    unfold loadFromNVS at h
    simp only [hopen, Option.some.injEq] at h
    rw [← h]
    omega
  | some nvs =>
    rw [loadFromNVS_some s s1 nvs hopen h, List.length_append]
    have := length_filterMap_slot nvs (List.range (min (nvs.count.getD 0) 10))
    rw [List.length_range] at this
    omega

theorem init_length (opened : Option Nvs) (s s1 : State) (h : init opened s = some s1) :
    s1.alarms_.length ≤ s.alarms_.length + 10 := by
  unfold init at h
  cases opened with
  | none =>
    simp only [Option.some.injEq] at h
    rw [← h]
    omega
  | some nvs =>
    simp only at h
    cases hl : loadFromNVS { s with nvs_handle_ := some nvs } with
    | none => rw [hl] at h; cases h
    | some s2 =>
      rw [hl] at h
      simp only [Option.map_some', Option.some.injEq] at h
      rw [← h]
      refine Nat.le_trans (cleanup_length_le _) ?_
      exact loadFromNVS_length { s with nvs_handle_ := some nvs } s2 hl

theorem parseResponse_length (text : Str) (s : State) :
    (parseResponse text s).alarms_.length ≤ s.alarms_.length + 1 := by
  unfold parseResponse
  split
  · simp [clearAll]
  · split
    · omega
    · split
      · omega
      · split
        · omega
        · split
          · omega
          · split
            · omega
            · simp

theorem addAlarm_length (alarm : Alarm) (s : State) :
    (addAlarm alarm s).alarms_.length ≤ s.alarms_.length + 1 := by
  unfold addAlarm
  split
  · omega
  · split
    · omega
    · simp

theorem checkAlarms_length (lt : Int → Tm) (now : Int) (s : State) :
    (checkAlarms lt now s).alarms_.length ≤ s.alarms_.length := by
  rw [checkAlarms_alarms]
  split
  · omega
  · split
    · refine Nat.le_trans (List.length_filter_le _ _) ?_
      simp
    · simp

/-- C17 (as stated) fails: eleven `addAlarm` calls with enabled alarms at eleven
different hours, starting from the empty list, leave eleven alarms. -/
theorem bounded_count_counterexample :
    (run utc elevenAdds (mkState [])).alarms_.length = 11 ∧
    (init (some Nvs.empty) fresh).map
      (fun s1 => (run utc elevenAdds s1).alarms_.length) = some 11 := by
  decide

/-- C17 (as amended). The list that `init` or `loadFromNVS` produces from the
empty list holds at most 10 alarms; `parseResponse` and `addAlarm` add at most
one alarm per call, and `checkAlarms`, `cleanupExpiredAlarms` and `clearAll`
never increase the number of alarms. -/
theorem count_after_load (localtime_r : Int → Tm) (s : State) (opened : Option Nvs)
    (text : Str) (alarm : Alarm) (now : Int) :
    (s.alarms_ = [] →
      (∀ s1, loadFromNVS s = some s1 → s1.alarms_.length ≤ 10) ∧
      (∀ s1, init opened s = some s1 → s1.alarms_.length ≤ 10)) ∧
    (parseResponse text s).alarms_.length ≤ s.alarms_.length + 1 ∧
    (addAlarm alarm s).alarms_.length ≤ s.alarms_.length + 1 ∧
    (checkAlarms localtime_r now s).alarms_.length ≤ s.alarms_.length ∧
    (cleanupExpiredAlarms s).alarms_.length ≤ s.alarms_.length ∧
    (clearAll s).alarms_.length = 0 := by
  refine ⟨?_, parseResponse_length text s, addAlarm_length alarm s,
    checkAlarms_length localtime_r now s, cleanup_length_le s, rfl⟩
  intro h
  refine ⟨?_, ?_⟩
  · intro s1 h1
    have := loadFromNVS_length s s1 h1
    rw [h] at this
    simpa using this
  · intro s1 h1
    have := init_length opened s s1 h1
    rw [h] at this
    simpa using this

theorem count_after_load_witness :
    (init (some nvsPartlyCorrupt) fresh).map (fun s1 => decide (s1.alarms_.length ≤ 10)) =
      some true :=
  have h := ((count_after_load utc fresh (some nvsPartlyCorrupt) (bytes "bao thuc 7h30")
    alarmA 27000).1 rfl).2
  have hi : init (some nvsPartlyCorrupt) fresh = some
      { alarms_ := [alarmA, alarmB], nvs_handle_ := some nvsPartlyCorrupt,
        last_check_time_ := 0, triggered := [], save_calls := 0 } := by
    unfold init loadFromNVS
    rfl
  by rw [hi, Option.map_some', decide_eq_true (h _ hi)]

theorem handle_none_saveToNVS (s : State) (h : s.nvs_handle_ = none) :
    (saveToNVS s).nvs_handle_ = none := by
  unfold saveToNVS
  simp [h]

theorem handle_none_cleanup (s : State) (h : s.nvs_handle_ = none) :
    (cleanupExpiredAlarms s).nvs_handle_ = none := by
  unfold cleanupExpiredAlarms
  simp only
  split
  · exact handle_none_saveToNVS _ h
  · exact h

theorem handle_none_step (lt : Int → Tm) (op : Op) (s : State) (h : s.nvs_handle_ = none) :
    (step lt op s).nvs_handle_ = none := by
  cases op with
  | parseResponse text =>
    simp only [step]
    unfold parseResponse
    split
    · exact handle_none_saveToNVS _ h
    · split
      · exact h
      · split
        · exact h
        · split
          · exact h
          · split
            · exact h
            · split
              · exact h
              · exact handle_none_saveToNVS _ h
  | addAlarm alarm =>
    simp only [step]
    unfold addAlarm
    split
    · exact h
    · split
      · exact h
      · exact handle_none_saveToNVS _ h
  | checkAlarms now =>
    simp only [step]
    unfold checkAlarms
    split
    · exact h
    · rcases checkLoop (lt now) s.alarms_ with ⟨l1, fired⟩
      simp only
      split
      · exact handle_none_cleanup _ (handle_none_saveToNVS _ h)
      · exact h
  | cleanupExpiredAlarms => exact handle_none_cleanup s h
  | clearAll => exact handle_none_saveToNVS _ h

theorem handle_none_run (lt : Int → Tm) (ops : List Op) (s : State)
    (h : s.nvs_handle_ = none) : (run lt ops s).nvs_handle_ = none := by
  induction ops generalizing s with
  | nil => exact h
  | cons op rest ih => exact ih _ (handle_none_step lt op s h)

/-- C18 (as stated) fails: after `init` failed to open the namespace, `addAlarm`
and `parseResponse` still append to the alarm list. -/
theorem open_failure_counterexample :
    (init none fresh).map (fun s1 => s1.alarms_) = some [] ∧
    (init none fresh).map (fun s1 => (addAlarm alarmA s1).alarms_) = some [alarmA] ∧
    (init none fresh).map (fun s1 => (parseResponse (bytes "bao thuc 7h30") s1).alarms_) =
      some [⟨7, 30, bytes "bao thuc 7h30", true, false⟩] := by
  decide

/-- C18 (as amended). When `init` fails to open the persistence namespace at
start-up (empty list, no open handle), it changes nothing: the alarm list is
empty after `init` and nothing is loaded; and for the rest of the session,
after every sequence of operations, there is still no open handle, so nothing
is ever read from or written to the storage. -/
theorem open_failure (localtime_r : Int → Tm) (s : State) (ops : List Op)
    (hempty : s.alarms_ = []) (hclosed : s.nvs_handle_ = none) :
    init none s = some s ∧
    (init none s).map (fun s1 => s1.alarms_) = some [] ∧
    (init none s).map (fun s1 => (run localtime_r ops s1).nvs_handle_) = some none := by
  have h : init none s = some s := rfl
  refine ⟨h, ?_, ?_⟩
  · rw [h, Option.map_some', hempty]
  · rw [h, Option.map_some', handle_none_run localtime_r ops s hclosed]

theorem open_failure_witness :
    (init none fresh).map (fun s1 => s1.alarms_) = some [] ∧
    (init none fresh).map (fun s1 =>
      (run utc [.addAlarm alarmA, .checkAlarms 27000, .parseResponse (bytes "bao thuc 7h30")]
        s1).nvs_handle_.isSome) = some false :=
  have h := open_failure utc fresh
    [.addAlarm alarmA, .checkAlarms 27000, .parseResponse (bytes "bao thuc 7h30")] rfl rfl
  ⟨h.2.1, by rw [h.1, Option.map_some', Option.some.injEq]
             have := h.2.2
             rw [h.1, Option.map_some', Option.some.injEq] at this
             rw [this]; rfl⟩

/-- C19 fails on the code. A stored record "99:99|x|1|0" is loaded as an alarm
with hour 99 and minute 99: `loadFromNVS` pushes what `sscanf` read without
the range test that `addAlarm` and `parseResponse` apply. -/
theorem reload_out_of_range :
    (loadFromNVS { fresh with nvs_handle_ := some nvsOutOfRange }).map (fun s1 => s1.alarms_) =
      some [⟨99, 99, bytes "x", true, false⟩] ∧
    (init (some nvsOutOfRange) fresh).map (fun s1 => s1.alarms_) =
      some [⟨99, 99, bytes "x", true, false⟩] ∧
    ¬ InRange [⟨99, 99, bytes "x", true, false⟩] ∧
    addAlarm ⟨99, 99, bytes "x", true, false⟩ (mkState []) = mkState [] := by
  refine ⟨by decide, by decide, by decide, rfl⟩

/-! ## Claims on the presenters -/

theorem alarmDiff_eq_wrapDiff (timeinfo : Tm) (a : Alarm) (ht : ValidTm timeinfo)
    (ha : a.hour ≤ 23 ∧ a.minute ≤ 59) :
    alarmDiff (currentMinutes timeinfo) a = wrapDiff timeinfo a ∧
      0 ≤ wrapDiff timeinfo a ∧ wrapDiff timeinfo a < 1440 := by
  obtain ⟨ht1, ht2⟩ := ht
  unfold alarmDiff wrapDiff currentMinutes
  simp only
  have h1 : (a.hour : Int) ≤ 23 := by exact_mod_cast ha.1
  have h2 : (a.minute : Int) ≤ 59 := by exact_mod_cast ha.2
  have h3 : (timeinfo.tm_hour : Int) ≤ 23 := by exact_mod_cast ht1
  have h4 : (timeinfo.tm_min : Int) ≤ 59 := by exact_mod_cast ht2
  have h5 : (0 : Int) ≤ a.hour := Int.natCast_nonneg _
  have h6 : (0 : Int) ≤ a.minute := Int.natCast_nonneg _
  have h7 : (0 : Int) ≤ timeinfo.tm_hour := Int.natCast_nonneg _
  have h8 : (0 : Int) ≤ timeinfo.tm_min := Int.natCast_nonneg _
  refine ⟨?_, ?_, ?_⟩
  · split <;> omega
  · omega
  · omega

/-- Invariant of the loop of `getNextAlarmInfo` after the alarms `seen`. -/
theorem nextStep_invariant (cm : Int) (l seen : List Alarm) (acc : Int × Option Alarm)
    (hl : ∀ a ∈ l, alarmDiff cm a < 1440)
    (hacc : (acc.2 = none ∧ acc.1 = 1440 ∧ ∀ a ∈ seen, a.enabled = false) ∨
      (∃ a, acc.2 = some a ∧ a ∈ seen ∧ a.enabled = true ∧ acc.1 = alarmDiff cm a ∧
        ∀ b ∈ seen, b.enabled = true → alarmDiff cm a ≤ alarmDiff cm b)) :
    ((l.foldl (nextStep cm) acc).2 = none ∧ ∀ a ∈ seen ++ l, a.enabled = false) ∨
      (∃ a, (l.foldl (nextStep cm) acc).2 = some a ∧ a ∈ seen ++ l ∧ a.enabled = true ∧
        ∀ b ∈ seen ++ l, b.enabled = true → alarmDiff cm a ≤ alarmDiff cm b) := by
  induction l generalizing seen acc with
  | nil =>
    simp only [List.foldl_nil, List.append_nil]
    rcases hacc with ⟨h1, _, h3⟩ | ⟨a, h1, h2, h3, _, h5⟩
    · exact Or.inl ⟨h1, h3⟩
    · exact Or.inr ⟨a, h1, h2, h3, h5⟩
  | cons x rest ih =>
    rw [List.foldl_cons]
    have hx := hl x (List.mem_cons_self _ _)
    have hrest : ∀ a ∈ rest, alarmDiff cm a < 1440 :=
      fun a ha => hl a (List.mem_cons_of_mem _ ha)
    have happ : seen ++ x :: rest = (seen ++ [x]) ++ rest := by simp
    rw [happ]
    apply ih (seen ++ [x]) (nextStep cm acc x) hrest
    unfold nextStep
    by_cases hen : x.enabled = true
    · simp only [hen, Bool.not_true, Bool.false_eq_true, if_false]
      rcases hacc with ⟨h1, h2, h3⟩ | ⟨a, h1, h2, h3, h4, h5⟩
      · rw [if_pos (by rw [h2]; exact hx)]
        refine Or.inr ⟨x, rfl, by simp, hen, rfl, ?_⟩
        intro b hb hbe
        rw [List.mem_append, List.mem_singleton] at hb
        rcases hb with hb | hb
        · rw [h3 b hb] at hbe; cases hbe
        · rw [hb]
      · by_cases hlt : alarmDiff cm x < acc.1
        · rw [if_pos hlt]
          refine Or.inr ⟨x, rfl, by simp, hen, rfl, ?_⟩
          intro b hb hbe
          rw [List.mem_append, List.mem_singleton] at hb
          rcases hb with hb | hb
          · have := h5 b hb hbe
            omega
          · rw [hb]
        · rw [if_neg hlt]
          refine Or.inr ⟨a, h1, by simp [h2], h3, h4, ?_⟩
          intro b hb hbe
          rw [List.mem_append, List.mem_singleton] at hb
          rcases hb with hb | hb
          · exact h5 b hb hbe
          · rw [hb]; omega
    · have hen2 : x.enabled = false := by simpa using hen
      simp only [hen2, Bool.not_false, if_true]
      rcases hacc with ⟨h1, h2, h3⟩ | ⟨a, h1, h2, h3, h4, h5⟩
      · refine Or.inl ⟨h1, h2, ?_⟩
        intro b hb
        rw [List.mem_append, List.mem_singleton] at hb
        rcases hb with hb | hb
        · exact h3 b hb
        · rw [hb]; exact hen2
      · refine Or.inr ⟨a, h1, by simp [h2], h3, h4, ?_⟩
        intro b hb hbe
        rw [List.mem_append, List.mem_singleton] at hb
        rcases hb with hb | hb
        · exact h5 b hb hbe
        · rw [hb, hen2] at hbe; cases hbe

theorem formatNext_ne_sentinel (a : Alarm) (hh : a.hour ≤ 23) :
    formatNext a ≠ bytes "Khong co bao thuc" := by
  intro h
  have hs : bytes "Khong co bao thuc" = 75 :: (bytes "hong co bao thuc") := by decide
  unfold formatNext at h
  rw [fmt02d_lt a.hour (by omega), hs] at h
  simp only [List.cons_append, List.take_succ_cons] at h
  injection h with h1 _
  omega

theorem collectEnabled_eq (cm : Int) (l : List Alarm) :
    collectEnabled cm l = (l.filter (fun a => a.enabled)).map (fun a => (alarmDiff cm a, a)) := by
  induction l with
  | nil => rfl
  | cons a rest ih =>
    unfold collectEnabled
    by_cases h : a.enabled = true
    · simp [h, ih]
    · have h2 : a.enabled = false := by simpa using h
      simp [h2, ih]

theorem collectEnabled_inRange (timeinfo : Tm) (l : List Alarm) (ht : ValidTm timeinfo)
    (hr : InRange l) :
    collectEnabled (currentMinutes timeinfo) l =
      (l.filter (fun a => a.enabled)).map (fun a => (wrapDiff timeinfo a, a)) := by
  rw [collectEnabled_eq]
  apply List.map_congr_left
  intro a ha
  rw [(alarmDiff_eq_wrapDiff timeinfo a ht (hr a (List.mem_of_mem_filter ha))).1]

theorem renderLoop_eq (l : List (Int × Alarm)) (count : Nat) (result : Str)
    (hpos : ∀ e ∈ l, 0 ≤ e.1) :
    renderLoop l count result = result ++
      (List.zipWith (fun (n : Nat) (e : Int × Alarm) => entryLine n e.2 (e.1 / 60) (e.1 % 60))
        (List.range' count l.length) l).flatten := by
  induction l generalizing count result with
  | nil => simp [renderLoop]
  | cons e rest ih =>
    obtain ⟨diff, alarm⟩ := e
    have hd : 0 ≤ diff := hpos (diff, alarm) (List.mem_cons_self _ _)
    unfold renderLoop
    have hc : ((count : Int) + 1) = ((count + 1 : Nat) : Int) := by push_cast; rfl
    rw [hc, ih (count + 1) _ (fun e he => hpos e (List.mem_cons_of_mem _ he)),
      Int.tdiv_eq_ediv hd (by norm_num), Int.tmod_eq_emod hd (by norm_num)]
    simp [List.range'_succ, List.append_assoc]

theorem wrapDiff_injective (timeinfo : Tm) (a b : Alarm) (ht : ValidTm timeinfo)
    (ha : a.hour ≤ 23 ∧ a.minute ≤ 59) (hb : b.hour ≤ 23 ∧ b.minute ≤ 59)
    (h : wrapDiff timeinfo a = wrapDiff timeinfo b) : a.hour = b.hour ∧ a.minute = b.minute := by
  obtain ⟨ht1, ht2⟩ := ht
  unfold wrapDiff currentMinutes at h
  have h1 : (a.hour : Int) ≤ 23 := by exact_mod_cast ha.1
  have h2 : (a.minute : Int) ≤ 59 := by exact_mod_cast ha.2
  have h3 : (timeinfo.tm_hour : Int) ≤ 23 := by exact_mod_cast ht1
  have h4 : (timeinfo.tm_min : Int) ≤ 59 := by exact_mod_cast ht2
  have h5 : (b.hour : Int) ≤ 23 := by exact_mod_cast hb.1
  have h6 : (b.minute : Int) ≤ 59 := by exact_mod_cast hb.2
  have h7 : (0 : Int) ≤ a.hour := Int.natCast_nonneg _
  have h8 : (0 : Int) ≤ a.minute := Int.natCast_nonneg _
  have h9 : (0 : Int) ≤ timeinfo.tm_hour := Int.natCast_nonneg _
  have h10 : (0 : Int) ≤ timeinfo.tm_min := Int.natCast_nonneg _
  have h11 : (0 : Int) ≤ b.hour := Int.natCast_nonneg _
  have h12 : (0 : Int) ≤ b.minute := Int.natCast_nonneg _
  have hh : (a.hour : Int) = b.hour := by omega
  have hm : (a.minute : Int) = b.minute := by omega
  exact ⟨by exact_mod_cast hh, by exact_mod_cast hm⟩

theorem enabled_diffs_distinct (timeinfo : Tm) (l : List Alarm) (ht : ValidTm timeinfo)
    (hr : InRange l) (hu : UniqueEnabled l) :
    (l.filter (fun a => a.enabled)).Pairwise
      (fun a b => wrapDiff timeinfo a ≠ wrapDiff timeinfo b) := by
  have hsub : (l.filter (fun a => a.enabled)).Pairwise (fun a b =>
      ¬ (a.enabled = true ∧ b.enabled = true ∧ a.hour = b.hour ∧ a.minute = b.minute)) :=
    List.Pairwise.sublist (List.filter_sublist l) hu
  refine List.Pairwise.imp_of_mem ?_ hsub
  intro a b ha hb hab heq
  rw [List.mem_filter] at ha hb
  have := wrapDiff_injective timeinfo a b ht (hr a ha.1) (hr b hb.1) heq
  exact hab ⟨ha.2, hb.2, this.1, this.2⟩

theorem strict_of_sorted_distinct (l : List (Int × Alarm))
    (hs : l.Pairwise (fun a b => ¬ b.1 < a.1)) (hd : l.Pairwise (fun a b => a.1 ≠ b.1)) :
    l.Pairwise (fun a b => a.1 < b.1) := by
  refine List.Pairwise.imp ?_ (List.Pairwise.and hs hd)
  intro a b h
  have h1 := h.1
  have h2 := h.2
  omega

theorem sorted_unique (l1 l2 : List (Int × Alarm)) (hp : l1.Perm l2)
    (h1 : l1.Pairwise (fun a b => a.1 < b.1)) (h2 : l2.Pairwise (fun a b => a.1 < b.1)) :
    l1 = l2 := by
  haveI : IsAntisymm (Int × Alarm) (fun a b => a.1 < b.1) :=
    ⟨fun a b hab hba => absurd (lt_trans hab hba) (lt_irrefl _)⟩
  exact List.eq_of_perm_of_sorted hp h1 h2

theorem insertionSort_sorted (l : List (Int × Alarm)) :
    (l.insertionSort (fun a b => a.1 ≤ b.1)).Pairwise (fun a b => ¬ b.1 < a.1) := by
  haveI : IsTotal (Int × Alarm) (fun a b => a.1 ≤ b.1) := ⟨fun a b => le_total a.1 b.1⟩
  haveI : IsTrans (Int × Alarm) (fun a b => a.1 ≤ b.1) := ⟨fun a b c h1 h2 => le_trans h1 h2⟩
  have h := List.sorted_insertionSort (fun a b : Int × Alarm => a.1 ≤ b.1) l
  refine List.Pairwise.imp ?_ h
  intro a b hab
  omega

theorem sampleSort_isStdSort : IsStdSort sampleSort := by
  intro l
  exact ⟨List.perm_insertionSort _ l, insertionSort_sorted l⟩

theorem keys_distinct_of_perm (timeinfo : Tm) (alarms : List Alarm) (l : List (Int × Alarm))
    (ht : ValidTm timeinfo) (hr : InRange alarms) (hu : UniqueEnabled alarms)
    (hp : l.Perm ((alarms.filter (fun a => a.enabled)).map (fun a => (wrapDiff timeinfo a, a)))) :
    l.Pairwise (fun a b => a.1 ≠ b.1) := by
  have h0 : ((alarms.filter (fun a => a.enabled)).map
      (fun a => (wrapDiff timeinfo a, a))).Pairwise (fun a b => a.1 ≠ b.1) := by
    rw [List.pairwise_map]
    exact enabled_diffs_distinct timeinfo alarms ht hr hu
  exact (List.Perm.pairwise_iff (fun {a b} (h : a.1 ≠ b.1) => Ne.symm h) hp).mpr h0

/-- The listing of `getAllAlarmsInfo` with each line as `snprintf` leaves it in its
buffer of 256 bytes (`numberedLines`), for every alarm list satisfying the
range and uniqueness invariants with at least one enabled alarm. -/
theorem listing_cut (sort : List (Int × Alarm) → List (Int × Alarm))
    (hsort : IsStdSort sort) (timeinfo : Tm) (s : State)
    (hrange : InRange s.alarms_) (hunique : UniqueEnabled s.alarms_)
    (henabled : ∃ a ∈ s.alarms_, a.enabled = true) (htime : ValidTm timeinfo) :
    getAllAlarmsInfo sort timeinfo s =
      bytes "Danh sách báo thức:\n" ++ numberedLines (listedEntries timeinfo s.alarms_) ∧
    ((listedEntries timeinfo s.alarms_).map Prod.snd).Perm
      (s.alarms_.filter (fun a => a.enabled)) ∧
    (∀ e ∈ listedEntries timeinfo s.alarms_, e.1 = wrapDiff timeinfo e.2) ∧
    (listedEntries timeinfo s.alarms_).Pairwise (fun a b => a.1 < b.1) ∧
    (s.alarms_.filter (fun a => a.enabled)).Pairwise
      (fun a b => wrapDiff timeinfo a ≠ wrapDiff timeinfo b) ∧
    (∀ l : List (Int × Alarm),
      l.Perm ((s.alarms_.filter (fun a => a.enabled)).map (fun a => (wrapDiff timeinfo a, a))) →
      l.Pairwise (fun a b => a.1 ≤ b.1) → l = listedEntries timeinfo s.alarms_) := by
  have hperm : (listedEntries timeinfo s.alarms_).Perm
      ((s.alarms_.filter (fun a => a.enabled)).map (fun a => (wrapDiff timeinfo a, a))) :=
    List.perm_insertionSort _ _
  have hstrict : (listedEntries timeinfo s.alarms_).Pairwise (fun a b => a.1 < b.1) :=
    strict_of_sorted_distinct _ (insertionSort_sorted _)
      (keys_distinct_of_perm timeinfo s.alarms_ _ htime hrange hunique hperm)
  have huniq : ∀ l : List (Int × Alarm),
      l.Perm ((s.alarms_.filter (fun a => a.enabled)).map (fun a => (wrapDiff timeinfo a, a))) →
      l.Pairwise (fun a b => ¬ b.1 < a.1) → l = listedEntries timeinfo s.alarms_ := by
    intro l hp hs
    exact sorted_unique l _ (hp.trans hperm.symm)
      (strict_of_sorted_distinct l hs
        (keys_distinct_of_perm timeinfo s.alarms_ l htime hrange hunique hp)) hstrict
  have hentry : ∀ e ∈ listedEntries timeinfo s.alarms_, e.1 = wrapDiff timeinfo e.2 := by
    intro e he
    have := hperm.mem_iff.mp he
    rw [List.mem_map] at this
    obtain ⟨a, _, rfl⟩ := this
    rfl
  refine ⟨?_, ?_, hentry, hstrict, enabled_diffs_distinct timeinfo s.alarms_ htime hrange hunique,
    ?_⟩
  · obtain ⟨a0, ha0, hen0⟩ := henabled
    have hmem : a0 ∈ s.alarms_.filter (fun a => a.enabled) := List.mem_filter.mpr ⟨ha0, hen0⟩
    have hcol := collectEnabled_inRange timeinfo s.alarms_ htime hrange
    unfold getAllAlarmsInfo
    rw [if_neg]
    · simp only
      rw [if_neg]
      · rw [hcol, huniq _ (hsort _).1 (hsort _).2]
        unfold numberedLines
        apply renderLoop_eq
        intro e he
        rw [hentry e he]
        have hm := hperm.mem_iff.mp he
        rw [List.mem_map] at hm
        obtain ⟨a, ha, rfl⟩ := hm
        exact (alarmDiff_eq_wrapDiff timeinfo a htime
          (hrange a (List.mem_of_mem_filter ha))).2.1
      · rw [hcol]
        intro hemp
        rw [List.isEmpty_iff, List.map_eq_nil_iff] at hemp
        rw [hemp] at hmem
        cases hmem
    · intro hemp
      rw [List.isEmpty_iff] at hemp
      rw [hemp] at ha0
      cases ha0
  · have h1 := hperm.map Prod.snd
    have h2 : List.map Prod.snd ((s.alarms_.filter (fun a => a.enabled)).map
        (fun a => (wrapDiff timeinfo a, a))) = s.alarms_.filter (fun a => a.enabled) := by
      rw [List.map_map]
      exact List.map_id _
    rw [h2] at h1
    exact h1
  · intro l hp hs
    apply huniq l hp
    refine List.Pairwise.imp ?_ hs
    intro a b hab
    omega

theorem toDigitsCore_length (fuel n k : Nat) (ds : List Char) (h : n < 10 ^ (k + 1)) :
    (Nat.toDigitsCore 10 fuel n ds).length ≤ ds.length + k + 1 := by
  induction fuel generalizing n k ds with
  | zero => simp only [Nat.toDigitsCore]; omega
  | succ fuel ih =>
    unfold Nat.toDigitsCore
    simp only
    split
    · simp only [List.length_cons]; omega
    · rename_i hne
      cases k with
      | zero =>
        exfalso
        apply hne
        simp at h
        omega
      | succ k' =>
        have hlt : n / 10 < 10 ^ (k' + 1) := by
          rw [Nat.div_lt_iff_lt_mul (by norm_num)]
          calc n < 10 ^ (k' + 1 + 1) := h
            _ = 10 ^ (k' + 1) * 10 := by ring
        have := ih (n / 10) k' (Nat.digitChar (n % 10) :: ds) hlt
        simp only [List.length_cons] at this
        omega

theorem digits_length (n k : Nat) (h : n < 10 ^ (k + 1)) : (digits n).length ≤ k + 1 := by
  unfold digits Nat.toDigits
  rw [List.length_map]
  have := toDigitsCore_length (n + 1) n k [] h
  simpa using this

theorem fmtInt_length (n : Int) (k : Nat) (h0 : 0 ≤ n) (h : n < 10 ^ (k + 1)) :
    (fmtInt n).length ≤ k + 1 := by
  unfold fmtInt
  rw [if_neg (by omega)]
  apply digits_length
  have : ((n.toNat : Nat) : Int) < ((10 ^ (k + 1) : Nat) : Int) := by
    rw [Int.toNat_of_nonneg h0]; push_cast; exact h
  exact_mod_cast this

theorem fmt02Int_length (n : Int) (h0 : 0 ≤ n) (h : n < 100) : (fmt02Int n).length = 2 := by
  unfold fmt02Int
  rw [if_neg (by omega), fmt02d_lt n.toNat (by omega)]
  rfl

theorem sorted_length_le (l : List (Int × Alarm)) (lo : Int)
    (hs : l.Pairwise (fun a b => a.1 < b.1))
    (hb : ∀ e ∈ l, lo ≤ e.1 ∧ e.1 < 1440) : (l.length : Int) ≤ max (1440 - lo) 0 := by
  induction l generalizing lo with
  | nil => simp
  | cons e rest ih =>
    rw [List.pairwise_cons] at hs
    have he := hb e (List.mem_cons_self _ _)
    have := ih (e.1 + 1) hs.2 (fun x hx =>
      ⟨by have := hs.1 x hx; omega, (hb x (List.mem_cons_of_mem _ hx)).2⟩)
    simp only [List.length_cons]
    push_cast
    omega

theorem entryLine_full (n : Nat) (a : Alarm) (d : Int) (hn : n < 10000)
    (ha : a.hour ≤ 23 ∧ a.minute ≤ 59) (hd : 0 ≤ d ∧ d < 1440)
    (hlen : a.message.length ≤ 212) (hnul : 0 ∉ a.message) :
    entryLine n a (d / 60) (d % 60) = fullLine n a d := by
  have hcs : c_str a.message = a.message := by
    unfold c_str
    rw [List.takeWhile_eq_self_iff]
    intro x hx
    simp only [ne_eq, decide_not, Bool.not_eq_true', decide_eq_false_iff_not]
    intro h0; subst h0; exact hnul hx
  unfold entryLine fullLine
  rw [hcs]
  apply List.take_of_length_le
  have h1 : (fmtInt (n : Int)).length ≤ 4 :=
    fmtInt_length n 3 (Int.natCast_nonneg _) (by norm_num; exact_mod_cast hn)
  have h2 : (fmtInt (d / 60)).length ≤ 2 :=
    fmtInt_length (d / 60) 1 (by omega) (by norm_num; omega)
  have h3 : (fmt02Int (d % 60)).length = 2 := fmt02Int_length _ (by omega) (by omega)
  have h4 : (if a.repeated = true then bytes " [Hàng ngày]" else []).length ≤ 14 := by
    split
    · decide
    · simp
  have c1 : (bytes ". ").length = 2 := by decide
  have c2 : (bytes ":").length = 1 := by decide
  have c3 : (bytes " - ").length = 3 := by decide
  have c4 : (bytes " (còn ").length = 7 := by decide
  have c5 : (bytes "h").length = 1 := by decide
  have c6 : (bytes "p)\n").length = 3 := by decide
  rw [fmt02d_lt a.hour (by omega), fmt02d_lt a.minute (by omega)]
  simp only [List.length_append, List.length_cons, List.length_nil, c1, c2, c3, c4, c5, c6, h3]
  omega

theorem zipWith_lines_full (l : List (Int × Alarm)) (c : Nat)
    (hc : c + l.length ≤ 10000)
    (hl : ∀ e ∈ l, (e.2.hour ≤ 23 ∧ e.2.minute ≤ 59) ∧ (0 ≤ e.1 ∧ e.1 < 1440) ∧
      e.2.message.length ≤ 212 ∧ 0 ∉ e.2.message) :
    List.zipWith (fun (n : Nat) (e : Int × Alarm) => entryLine n e.2 (e.1 / 60) (e.1 % 60))
        (List.range' c l.length) l =
      List.zipWith (fun (n : Nat) (e : Int × Alarm) => fullLine n e.2 e.1)
        (List.range' c l.length) l := by
  induction l generalizing c with
  | nil => simp
  | cons e rest ih =>
    have he := hl e (List.mem_cons_self _ _)
    simp only [List.length_cons] at hc
    simp only [List.length_cons, List.range'_succ, List.zipWith_cons_cons]
    rw [entryLine_full c e.2 e.1 (by omega) he.1 he.2.1 he.2.2.1 he.2.2.2,
      ih (c + 1) (by omega) (fun x hx => hl x (List.mem_cons_of_mem _ hx))]

end AlarmManager
